import Mathlib

/-!
Verification of the `vb64` SIMD base64 codec (`src/lib.rs`, `src/simd.rs`,
`src/macros.rs`).

Shallow embedding conventions:
* A byte is a `Nat` assumed `< 256` (hypotheses carry the bound where needed).
* A SIMD vector `Simd<u8, N>` is a function `Nat → Nat` giving the value of
  each lane; lanes `≥ N` are never read by the modelled kernels.
* Machine-integer wrap-around is modelled by explicit `% 2^w`.
* Memory loads/stores of `u32`/`u64`/`u128` words are modelled little-endian
  (`loadLE`/`storeLE`), matching the `read_unaligned`/`write_unaligned`
  native-endian accesses of the source on the little-endian targets the SIMD
  code is built for.
* A `Vec<u8>` is its logical contents, a `List Nat`.  Raw writes performed
  beyond the length of the vector (into reserved capacity, before `set_len`) are
  modelled by the separate scratch list `acc`; `set_len` materialises
  `out ++ acc.take c`.
* Rust loops are modelled by fuel-based structural recursion; the fuel passed
  by the drivers (`data.length`) always dominates the true iteration count,
  so the model computes by `rfl`/`decide`.
-/

namespace VB64

/-! ### Length arithmetic (`lib.rs`, `decoded_len` / `encoded_len`) -/

/-- Rust `fn decoded_len(input: usize) -> usize`. -/
def decoded_len (input : Nat) : Nat :=
  let mod4 := input % 4
  input / 4 * 3 + (mod4 - mod4 / 2)

/-- Rust `fn encoded_len(input: usize) -> usize`. -/
def encoded_len (input : Nat) : Nat :=
  let mod3 := input % 3
  input / 3 * 4 + (mod3 + (mod3 + 1) / 2)

/-! ### The base64 alphabet, scalar reference functions -/

/-- A byte is in the standard base64 alphabet. -/
def isB64 (c : Nat) : Bool :=
  (65 ≤ c && c ≤ 90) || (97 ≤ c && c ≤ 122) || (48 ≤ c && c ≤ 57) ||
    c == 43 || c == 47

/-- The sextet a valid base64 character denotes (0 for invalid input). -/
def sextetOf (c : Nat) : Nat :=
  if 65 ≤ c ∧ c ≤ 90 then c - 65
  else if 97 ≤ c ∧ c ≤ 122 then c - 71
  else if 48 ≤ c ∧ c ≤ 57 then c + 4
  else if c = 43 then 62
  else if c = 47 then 63
  else 0

/-- RFC 4648 sextet-to-character table: 0–25 ↦ `A`–`Z`, 26–51 ↦ `a`–`z`,
52–61 ↦ `0`–`9`, 62 ↦ `+`, 63 ↦ `/`. -/
def b64char (s : Nat) : Nat :=
  if s < 26 then 65 + s
  else if s < 52 then 71 + s
  else if s < 62 then s - 4
  else if s = 62 then 43
  else 47

/-- Rust `u8::is_ascii_alphanumeric`. -/
def isAsciiAlphanumeric (b : Nat) : Bool :=
  (48 ≤ b && b ≤ 57) || (65 ≤ b && b ≤ 90) || (97 ≤ b && b ≤ 122)



end VB64

/-! Quick sanity examples (removed facts are proved as theorems below). -/

namespace VB64

/-! ### Little-endian word loads and stores (`read_slice_padded` helpers) -/

/-- Little-endian value of a byte list, as read by `read_unaligned` on a
little-endian machine. -/
def loadLE : List Nat → Nat
  | [] => 0
  | b :: t => b ||| (loadLE t <<< 8)

/-- Write the low `k` bytes of a value, little-endian, as done by
`write_unaligned`. -/
def storeLE : Nat → Nat → List Nat
  | 0, _ => []
  | k + 1, v => v % 256 :: storeLE k (v >>> 8)

/-- Overwrite `bytes.length` bytes of `buf` starting at `off`. -/
def writeBytes (buf : List Nat) (off : Nat) (bytes : List Nat) : List Nat :=
  buf.take off ++ bytes ++ buf.drop (off + bytes.length)

/-- The full-16-byte-block copy loop of `read_slice_padded` (`lib.rs` lines
242–250): block `i` copies `slice[16*i .. 16*i+16]` via an unaligned `u128`
load/store.  Blocks are disjoint, processed in increasing order. -/
def copyBlocks (buf slice : List Nat) : Nat → List Nat
  | 0 => buf
  | i + 1 =>
    writeBytes (copyBlocks buf slice i) (16 * i)
      (storeLE 16 (loadLE ((slice.drop (16 * i)).take 16)))

/-- Rust `unsafe fn read_slice_padded::<N, Z>(slice)` (`lib.rs` lines 230–304).
Gathers `slice` into an `N`-lane vector padded with `Z`.  The remainder of
the remainder is loaded by the 3-tier scheme: two overlapping 8-byte loads,
two overlapping 4-byte loads, or three single-byte loads, each OR-combined
with the fill word shifted above the true length.  Word arithmetic is
`u128`/`u64`/`u32`, hence the explicit `% 2 ^ 128` etc. -/
def read_slice_padded (n z : Nat) (slice : List Nat) : List Nat :=
  let buf := List.replicate n z
  let buf := if 16 ≤ slice.length then copyBlocks buf slice (slice.length / 16) else buf
  let o := 16 * (slice.length / 16)
  let len := slice.length % 16
  if 8 ≤ len then
    let lo := loadLE ((slice.drop o).take 8)
    let hi := loadLE ((slice.drop (o + (len - 8))).take 8)
    let d := lo ||| ((hi <<< ((len - 8) * 8)) % 2 ^ 128)
    let zw := (loadLE (List.replicate 16 z) <<< (len * 8)) % 2 ^ 128
    writeBytes buf o (storeLE 16 ((d ||| zw) % 2 ^ 128))
  else if 4 ≤ len then
    let lo := loadLE ((slice.drop o).take 4)
    let hi := loadLE ((slice.drop (o + (len - 4))).take 4)
    let d := lo ||| ((hi <<< ((len - 4) * 8)) % 2 ^ 64)
    let zw := (loadLE (List.replicate 8 z) <<< (len * 8)) % 2 ^ 64
    writeBytes buf o (storeLE 8 ((d ||| zw) % 2 ^ 64))
  else if 1 ≤ len then
    let lo := slice.getD o 0
    let mid := slice.getD (o + len / 2) 0
    let hi := slice.getD (o + (len - 1)) 0
    let d := lo ||| ((mid <<< (len / 2 * 8)) % 2 ^ 32) ||| ((hi <<< ((len - 1) * 8)) % 2 ^ 32)
    let zw := (loadLE (List.replicate 4 z) <<< (len * 8)) % 2 ^ 32
    writeBytes buf o (storeLE 4 ((d ||| zw) % 2 ^ 32))
  else buf

/-! ### SIMD primitives (`simd.rs`, `macros.rs`)

A `Simd<u8, N>` value is modelled as the function sending a lane index to the
byte of that lane; lanes `≥ N` are unused. -/

/-- Rust `Simd::swizzle_dyn`: per-lane dynamic table lookup over an `n`-lane table;
indices `≥ n` produce 0. -/
def swizzleDyn (n : Nat) (table idx : Nat → Nat) : Nat → Nat :=
  fun i => if idx i < n then table (idx i) else 0

/-- Rust `fn resize` (`simd.rs`): truncate or zero-pad an `a`-lane vector to `b`
lanes. -/
def resizeFun (a b : Nat) (v : Nat → Nat) : Nat → Nat :=
  fun i => if i < min a b then v i else 0

/-- Rust `fn swizzle::<N, M>` (`simd.rs`): lookup into an `a`-lane table treated as
zero-padded to infinite length, with `b`-lane indices. -/
def swizzle (a b : Nat) (table idx : Nat → Nat) : Nat → Nat :=
  if a < b then swizzleDyn b (resizeFun a b table) idx
  else resizeFun a b (swizzleDyn a table (resizeFun b a idx))

/-- Rust `reduce_or` over the first `n` lanes. -/
def reduceOr (n : Nat) (v : Nat → Nat) : Nat :=
  ((List.range n).map v).foldr (· ||| ·) 0

/-- The per-class additive offsets of the decode perfect hash
(`simd.rs` line 81); `!0`, `191 = -65 mod 256`, `185 = -71 mod 256`. -/
def decOffsets : List Nat := [255, 16, 19, 4, 191, 191, 185, 185]

/-- Rust `LO_LUT` (`simd.rs` lines 86–89), indexed by the low nibble. -/
def loLut : List Nat :=
  [0b10101, 0b10001, 0b10001, 0b10001, 0b10001, 0b10001, 0b10001, 0b10001,
   0b10001, 0b10001, 0b10011, 0b11010, 0b11011, 0b11011, 0b11011, 0b11010]

/-- Rust `HI_LUT` (`simd.rs` lines 91–94), indexed by the high nibble. -/
def hiLut : List Nat :=
  [0b10000, 0b10000, 0b00001, 0b00010, 0b00100, 0b01000, 0b00100, 0b01000,
   0b10000, 0b10000, 0b10000, 0b10000, 0b10000, 0b10000, 0b10000, 0b10000]

/-- The per-lane u16 shift amounts `[2, 4, 6, 8][i % 4]`. -/
def laneShift : List Nat := [2, 4, 6, 8]

/-- Rust `pub fn decode` in `simd.rs`: one `n`-lane vectorized decode step.
Returns the decoded bytes (meaningful in the low `3/4·n` lanes) and the
validity flag.  The `% 256` on `hashes` is a `u8` wrapping add (the
slash-equality mask contributes `255 = -1 mod 256`); sextet addition also
wraps at `u8`.  The final swizzle compacts with index `i + i/3`, out-of-range
indices selecting 0 (`swizzle!` pairs with `Simd::splat(0)`). -/
def simdDecode (n : Nat) (ascii : Nat → Nat) : (Nat → Nat) × Bool :=
  let hashes : Nat → Nat := fun i =>
    ((ascii i >>> 4) + (if ascii i = 47 then 255 else 0)) % 256
  let sextets : Nat → Nat := fun i =>
    (ascii i + swizzleDyn n (fun j => decOffsets.getD (j % 8) 0) hashes i) % 256
  let lo : Nat → Nat := swizzle 16 n (fun j => loLut.getD j 0) (fun i => ascii i &&& 0x0f)
  let hi : Nat → Nat := swizzle 16 n (fun j => hiLut.getD j 0) (fun i => ascii i >>> 4)
  let valid : Bool := reduceOr n (fun i => lo i &&& hi i) == 0
  let shifted : Nat → Nat := fun i => (sextets i <<< laneShift.getD (i % 4) 0) % 65536
  let lo2 : Nat → Nat := fun i => shifted i % 256
  let hi2 : Nat → Nat := fun i => (shifted i >>> 8) % 256
  let chunks : Nat → Nat := fun i => lo2 i ||| hi2 ((i + 1) % n)
  (fun i => if i + i / 3 < n then chunks (i + i / 3) else 0, valid)

/-- Rust `invert_index` (`macros.rs`): `out` starts as `[N; N]` and the loop writes
`out[f i] = i` for `i = 0, …, N-1` whenever `f i < N`; a later write wins.
The recursion below returns, for a query lane `j`, the value after the first
`m` loop iterations, i.e. the largest `i < m` with `f i = j < N`, else `N`. -/
def invertIndexGo (n : Nat) (f : Nat → Nat) (j : Nat) : Nat → Nat
  | 0 => n
  | i + 1 => if f i < n ∧ f i = j then i else invertIndexGo n f j i

/-- Lane `j` of `invert_index(array!(…))` after all `n` iterations. -/
def invertIndex (n : Nat) (f : Nat → Nat) (j : Nat) : Nat := invertIndexGo n f j n

/-- The per-lane masks of the encode kernel (`simd.rs` line 158). -/
def encMask : List Nat := [0b11111100, 0b11110000, 0b11000000, 0b00000000]

/-- The per-class offsets of the sextet→ASCII perfect hash (`simd.rs`
line 204). -/
def encOffsets : List Nat := [191, 185, 185, 4, 4, 19, 16, 255]

/-- Rust `pub fn encode` in `simd.rs`: one `n`-lane vectorized encode step over the
low `3/4·n` input lanes.  `!mask` on `u8` is `mask ^^^ 255`; `saturating_sub`
is `Nat` subtraction; the two mask additions wrap at `u8` (`% 256`); the final
`sextets - offsets` is a wrapping `u8` subtraction. -/
def simdEncode (n : Nat) (data : Nat → Nat) : Nat → Nat :=
  let d : Nat → Nat := fun j =>
    let k := invertIndex n (fun i => i + i / 3) j
    if k < n then data k else 0
  let mask : Nat → Nat := fun j => encMask.getD (j % 4) 0
  let lo : Nat → Nat := fun j => d j &&& mask j
  let hi : Nat → Nat := fun j => d ((j + n - 1) % n) &&& (mask ((j + n - 1) % n) ^^^ 255)
  let shifted : Nat → Nat := fun j => (lo j ||| ((hi j <<< 8) % 65536)) % 65536
  let sextets : Nat → Nat := fun j => (shifted j >>> laneShift.getD (j % 4) 0) % 256
  let hashes : Nat → Nat := fun j =>
    (((sextets j - 0x0a) + (if 0x34 ≤ sextets j then 0x0f else 0)
        + (if 0x3e ≤ sextets j then 0x1c else 0)) % 256) >>> 4
  let offsets : Nat → Nat := swizzleDyn n (fun i => encOffsets.getD (i % 8) 0) hashes
  fun j => (sextets j + 256 - offsets j) % 256

/-! ### Chunk drivers (`lib.rs`) -/

/-- The pad-stripping `match` at the top of `decode_tunable` (`lib.rs` line
87–89): strip two trailing `=`, else one, else nothing. -/
def stripPad (data : List Nat) : List Nat :=
  if 2 ≤ data.length ∧ data.getD (data.length - 2) 0 = 61 ∧
      data.getD (data.length - 1) 0 = 61 then
    data.take (data.length - 2)
  else if 1 ≤ data.length ∧ data.getD (data.length - 1) 0 = 61 then
    data.take (data.length - 1)
  else data

/-- Materialise the first `n` lanes of a vector, as written by a full-width
unaligned vector store. -/
def lanes (n : Nat) (v : Nat → Nat) : List Nat := (List.range n).map v

/-- The `chunks_exact(N)` loop of `decode_tunable`: per full chunk, decode,
OR-accumulate the failure flag, store all `n` lanes at the output cursor `c`,
advance the cursor by `decoded_len n` only (the stores of consecutive chunks
overlap).  Returns `(acc, c, failed, remainder)`.  `fuel` is an upper bound
on the iteration count making the recursion structural; the drivers pass
`data.length`, which always suffices. -/
def decLoop (n : Nat) :
    Nat → List Nat → List Nat → Nat → Bool → List Nat × Nat × Bool × List Nat
  | 0, rem, acc, c, failed => (acc, c, failed, rem)
  | fuel + 1, rem, acc, c, failed =>
    if n ≤ rem.length then
      let chunk := rem.take n
      let p := simdDecode n (fun i => chunk.getD i 0)
      decLoop n fuel (rem.drop n) (acc.take c ++ lanes n p.1)
        (c + decoded_len n) (failed || !p.2)
    else (acc, c, failed, rem)

/-- Rust `fn decode_tunable::<N>(data, out)` (`lib.rs` lines 78–133).  Returns the
`Result` together with the final logical contents of `out`.  The raw SIMD
stores land in reserved capacity past the length of `out` (scratch `acc`); only a
successful run commits them via `set_len` (`out ++ acc.take c`). -/
def decode_tunable (n : Nat) (data out : List Nat) : Except Unit Unit × List Nat :=
  let data := stripPad data
  if data.length = 0 then (Except.ok (), out)
  else
    let r := decLoop n data.length data [] 0 false
    let acc := r.1
    let c := r.2.1
    let failed := r.2.2.1
    let rest := r.2.2.2
    let r2 :=
      if rest.length ≠ 0 then
        let p := simdDecode n (fun i => (read_slice_padded n 65 rest).getD i 0)
        (acc.take c ++ lanes n p.1, c + decoded_len rest.length, failed || !p.2)
      else (acc, c, failed)
    if r2.2.2 then (Except.error (), out)
    else (Except.ok (), out ++ r2.1.take r2.2.1)

/-- The main window loop of `encode_tunable` (`while start != end`): reads a
full `n`-byte window at `s`, stores all `n` encoded lanes, advances the read
cursor by `n/4*3` and the write cursor by `n`.  The source guard is pointer
disequality; `e` is always a multiple of `n/4*3` reached exactly, so `s < e`
is equivalent.  `fuel ≥ e - s` suffices. -/
def encMainLoop (n : Nat) (data : List Nat) :
    Nat → Nat → Nat → List Nat → Nat → List Nat × Nat
  | 0, _, _, acc, c => (acc, c)
  | fuel + 1, s, e, acc, c =>
    if s < e then
      let chunk := (data.drop s).take n
      let enc := simdEncode n (fun i => chunk.getD i 0)
      encMainLoop n data fuel (s + n / 4 * 3) e (acc.take c ++ lanes n enc) (c + n)
    else (acc, c)

/-- The remainder loop of `encode_tunable` (`while start < end`): each
iteration takes at most `n/4*3` bytes, gathers them zero-padded, stores all
`n` encoded lanes, and advances the write cursor by `encoded_len` of the
chunk length. -/
def encRestLoop (n : Nat) (data : List Nat) :
    Nat → Nat → List Nat → Nat → List Nat × Nat
  | 0, _, acc, c => (acc, c)
  | fuel + 1, s, acc, c =>
    if s < data.length then
      let rest := data.length - s
      let chunk := (data.drop s).take (min rest (n / 4 * 3))
      let enc := simdEncode n (fun i => (read_slice_padded n 0 chunk).getD i 0)
      encRestLoop n data fuel (s + chunk.length) (acc.take c ++ lanes n enc)
        (c + encoded_len chunk.length)
    else (acc, c)

/-- Rust `fn encode_tunable::<N>(data, out)` (`lib.rs` lines 135–209): the window
end `e` is picked so every main-loop window has `n` readable bytes; the
remainder goes through the padded gather; `set_len` commits `acc.take c`;
then `=` padding is appended according to `out.len() % 4`. -/
def encode_tunable (n : Nat) (data out : List Nat) : List Nat :=
  let n3q := n / 4 * 3
  if data.length = 0 then out
  else
    let len := data.length
    let e :=
      if n - n3q ≤ len % n3q then len - len % n3q
      else if len < n then 0
      else len - len % n3q - n3q
    let m := encMainLoop n data len 0 e [] 0
    let r := encRestLoop n data len e m.1 m.2
    let out2 := out ++ r.1.take r.2
    match out2.length % 4 with
    | 2 => out2 ++ [61, 61]
    | 3 => out2 ++ [61]
    | _ => out2

/-! ### Public API (`lib.rs` lines 51–76)

`decode_to` selects the width at compile time: 32 with AVX2, else 16; the
model keeps it as a parameter.  `encode_to` always uses width 16. -/

/-- Rust `pub fn decode(data) -> Result<Vec<u8>, Error>` at width `n`. -/
def decode (n : Nat) (data : List Nat) : Except Unit (List Nat) :=
  match decode_tunable n data [] with
  | (Except.ok _, v) => Except.ok v
  | (Except.error e, _) => Except.error e

/-- Rust `pub fn encode(data) -> String` (byte contents of the returned string). -/
def encode (data : List Nat) : List Nat := encode_tunable 16 data []

/-! ### Scalar reference encoder/decoder (spec side, for round-trip and
error-behaviour statements) -/

/-- Reference base64 body encoder: 3 bytes → 4 characters, a 1- or 2-byte
tail producing 2 or 3 characters (no `=` padding). -/
def specEncodeBody : List Nat → List Nat
  | d0 :: d1 :: d2 :: rest =>
    b64char (d0 / 4) :: b64char (d0 % 4 * 16 + d1 / 16) ::
      b64char (d1 % 16 * 4 + d2 / 64) :: b64char (d2 % 64) :: specEncodeBody rest
  | [d0, d1] => [b64char (d0 / 4), b64char (d0 % 4 * 16 + d1 / 16), b64char (d1 % 16 * 4)]
  | [d0] => [b64char (d0 / 4), b64char (d0 % 4 * 16)]
  | [] => []

/-- Reference base64 encoder with `=` padding to a multiple of 4. -/
def specEncode (data : List Nat) : List Nat :=
  specEncodeBody data ++
    (if data.length % 3 = 1 then [61, 61] else if data.length % 3 = 2 then [61] else [])

/-- Reference decoder of a pad-stripped character list: 4 characters → 3
bytes; tails of 3, 2, 1 characters produce 2, 1, 1 bytes (a length-1 tail is
completed with the sextet-0 character, matching the `A` fill of the driver). -/
def specDecodeList : List Nat → List Nat
  | c0 :: c1 :: c2 :: c3 :: rest =>
    (sextetOf c0 * 4 + sextetOf c1 / 16) ::
      (sextetOf c1 % 16 * 16 + sextetOf c2 / 4) ::
      (sextetOf c2 % 4 * 64 + sextetOf c3) :: specDecodeList rest
  | [c0, c1, c2] => [sextetOf c0 * 4 + sextetOf c1 / 16, sextetOf c1 % 16 * 16 + sextetOf c2 / 4]
  | [c0, c1] => [sextetOf c0 * 4 + sextetOf c1 / 16]
  | [c0] => [sextetOf c0 * 4]
  | [] => []

/-- The sextet that the bit-field extraction of the encode kernel reads for output lane
`j` (spec side, from the RFC 4648 packing of three bytes into four sextets). -/
def specSextet (d : Nat → Nat) (j : Nat) : Nat :=
  let g := j / 4
  if j % 4 = 0 then d (3 * g) / 4
  else if j % 4 = 1 then d (3 * g) % 4 * 16 + d (3 * g + 1) / 16
  else if j % 4 = 2 then d (3 * g + 1) % 16 * 4 + d (3 * g + 2) / 64
  else d (3 * g + 2) % 64

/-- All entries of a list are bytes. -/
def allBytes (l : List Nat) : Prop := ∀ b ∈ l, b < 256

/-! ## Theorems -/

/-! ### Nat bitwise toolbox -/

theorem or_mod_two_pow (a b n : Nat) :
    (a ||| b) % 2 ^ n = a % 2 ^ n ||| b % 2 ^ n := by
  apply Nat.eq_of_testBit_eq
  intro i
  simp [Nat.testBit_mod_two_pow, Nat.testBit_or, Bool.and_or_distrib_left]

theorem or_shiftRight (a b n : Nat) : (a ||| b) >>> n = a >>> n ||| b >>> n := by
  apply Nat.eq_of_testBit_eq
  intro i
  simp [Nat.testBit_shiftRight, Nat.testBit_or]

theorem or_shiftLeft (a b n : Nat) : (a ||| b) <<< n = a <<< n ||| b <<< n := by
  apply Nat.eq_of_testBit_eq
  intro i
  simp [Nat.testBit_shiftLeft, Nat.testBit_or, Bool.and_or_distrib_left]

theorem shiftLeft_shiftRight_self (a n : Nat) : a <<< n >>> n = a := by
  rw [Nat.shiftLeft_eq, Nat.shiftRight_eq_div_pow,
    Nat.mul_div_cancel _ (Nat.pos_pow_of_pos n (by omega))]

theorem mod_two_pow_shiftRight (a m n : Nat) :
    (a % 2 ^ (m + n)) >>> n = (a >>> n) % 2 ^ m := by
  rw [Nat.shiftRight_eq_div_pow, Nat.shiftRight_eq_div_pow, Nat.pow_add,
    Nat.mul_comm (2 ^ m), Nat.mod_mul_right_div_self]

theorem two_pow_eight : (256 : Nat) = 2 ^ 8 := by norm_num

theorem shiftLeft_mod_two_pow (a m n : Nat) (h : m ≤ n) : a <<< n % 2 ^ m = 0 := by
  rw [Nat.shiftLeft_eq]
  exact Nat.mod_eq_zero_of_dvd (Dvd.dvd.mul_left (pow_dvd_pow 2 h) a)

theorem mod_two_pow_or_self (a n : Nat) : a % 2 ^ n ||| a = a := by
  apply Nat.eq_of_testBit_eq
  intro i
  simp only [Nat.testBit_or, Nat.testBit_mod_two_pow]
  cases h : a.testBit i <;> simp

theorem shiftLeft_mod (a m s : Nat) : (a % 2 ^ m) <<< s = a <<< s % 2 ^ (m + s) := by
  apply Nat.eq_of_testBit_eq
  intro i
  simp only [Nat.testBit_shiftLeft, Nat.testBit_mod_two_pow]
  by_cases h : s ≤ i
  · have h2 : (i - s < m) = (i < m + s) := by
      apply propext; constructor <;> intro <;> omega
    by_cases h3 : i - s < m <;> simp [h, h2 ▸ h3, h3]
  · simp [h]

theorem shiftLeft_mod_two_pow_shiftRight (x m k : Nat) (hk : 1 ≤ k) :
    ((x <<< (8 * m + 8)) % 2 ^ (8 * k)) >>> 8 = (x <<< (8 * m)) % 2 ^ (8 * k - 8) := by
  rw [show (2 : Nat) ^ (8 * k) = 2 ^ (8 * k - 8 + 8) by congr 1; omega,
    mod_two_pow_shiftRight, Nat.shiftLeft_add, shiftLeft_shiftRight_self]

/-! ### Little-endian load/store lemmas -/

theorem loadLE_lt (l : List Nat) (h : allBytes l) : loadLE l < 2 ^ (8 * l.length) := by
  induction l with
  | nil => simp [loadLE]
  | cons b t ih =>
    have hb : b < 256 := h b (by simp)
    have ht : loadLE t < 2 ^ (8 * t.length) := ih (fun x hx => h x (by simp [hx]))
    simp only [loadLE, List.length_cons]
    apply Nat.or_lt_two_pow
    · calc b < 256 := hb
        _ = 2 ^ 8 := two_pow_eight
        _ ≤ 2 ^ (8 * (t.length + 1)) := Nat.pow_le_pow_right (by omega) (by omega)
    · rw [Nat.shiftLeft_eq]
      calc loadLE t * 2 ^ 8 < 2 ^ (8 * t.length) * 2 ^ 8 :=
            (Nat.mul_lt_mul_right (by norm_num)).mpr ht
        _ = 2 ^ (8 * (t.length + 1)) := by rw [← Nat.pow_add]; ring_nf

theorem loadLE_take (l : List Nat) (k : Nat) (h : allBytes l) (hk : k ≤ l.length) :
    loadLE (l.take k) = loadLE l % 2 ^ (8 * k) := by
  induction l generalizing k with
  | nil =>
    have : k = 0 := by simpa using hk
    subst this
    simp [loadLE]
  | cons b t ih =>
    cases k with
    | zero => simp [loadLE, Nat.mod_one]
    | succ k =>
      have hb : b < 256 := h b (by simp)
      have ht : allBytes t := fun x hx => h x (by simp [hx])
      simp only [List.take_succ_cons, loadLE, ih k ht (by simpa using hk)]
      rw [or_mod_two_pow]
      congr 1
      · exact (Nat.mod_eq_of_lt (by
          calc b < 256 := hb
            _ = 2 ^ 8 := two_pow_eight
            _ ≤ 2 ^ (8 * (k + 1)) := Nat.pow_le_pow_right (by omega) (by omega))).symm
      · rw [shiftLeft_mod, show 8 * k + 8 = 8 * (k + 1) by ring]

theorem loadLE_append (a b : List Nat) :
    loadLE (a ++ b) = loadLE a ||| loadLE b <<< (8 * a.length) := by
  induction a with
  | nil => simp [loadLE]
  | cons x t ih =>
    calc loadLE (x :: (t ++ b)) = x ||| loadLE (t ++ b) <<< 8 := rfl
      _ = x ||| (loadLE t ||| loadLE b <<< (8 * t.length)) <<< 8 := by rw [ih]
      _ = x ||| (loadLE t <<< 8 ||| loadLE b <<< (8 * t.length) <<< 8) := by
            rw [or_shiftLeft]
      _ = (x ||| loadLE t <<< 8) ||| loadLE b <<< (8 * (x :: t).length) := by
            rw [← Nat.shiftLeft_add, Nat.or_assoc, List.length_cons,
              show 8 * t.length + 8 = 8 * (t.length + 1) by ring]

theorem loadLE_overlap (l : List Nat) (i j : Nat) (h : allBytes l)
    (hij : i ≤ j) (hj : j ≤ l.length) :
    loadLE (l.take j) ||| loadLE (l.drop i) <<< (8 * i) = loadLE l := by
  induction i generalizing l j with
  | zero =>
    simp only [List.drop_zero, Nat.mul_zero, Nat.shiftLeft_zero]
    rw [loadLE_take l j h hj]
    exact mod_two_pow_or_self _ _
  | succ i ih =>
    cases l with
    | nil =>
      simp only [List.length_nil] at hj
      omega
    | cons x t =>
      cases j with
      | zero => omega
      | succ k =>
        have ht : allBytes t := fun y hy => h y (by simp [hy])
        show (x ||| loadLE (t.take k) <<< 8) ||| loadLE (t.drop i) <<< (8 * (i + 1)) =
          x ||| loadLE t <<< 8
        rw [Nat.or_assoc]
        congr 1
        rw [show 8 * (i + 1) = 8 * i + 8 by ring, Nat.shiftLeft_add,
          ← or_shiftLeft, ih t k ht (by omega) (by simpa using hj)]

theorem storeLE_mod (k v : Nat) : storeLE k (v % 2 ^ (8 * k)) = storeLE k v := by
  induction k generalizing v with
  | zero => simp [storeLE]
  | succ k ih =>
    simp only [storeLE]
    congr 1
    · exact Nat.mod_mod_of_dvd v (two_pow_eight ▸ pow_dvd_pow 2 (by omega))
    · rw [show 8 * (k + 1) = 8 * k + 8 by ring, mod_two_pow_shiftRight, ih]

theorem storeLE_loadLE_take (k : Nat) (l : List Nat) (h : allBytes l)
    (hk : k ≤ l.length) : storeLE k (loadLE l) = l.take k := by
  induction k generalizing l with
  | zero => simp [storeLE]
  | succ k ih =>
    cases l with
    | nil => simp at hk
    | cons b t =>
      have hb : b < 256 := h b (by simp)
      have ht : allBytes t := fun y hy => h y (by simp [hy])
      simp only [storeLE, loadLE, List.take_succ_cons]
      congr 1
      · rw [two_pow_eight, or_mod_two_pow, shiftLeft_mod_two_pow _ 8 8 (by omega),
          Nat.or_zero]
        exact Nat.mod_eq_of_lt (two_pow_eight ▸ hb)
      · rw [or_shiftRight, shiftLeft_shiftRight_self]
        have hb8 : b >>> 8 = 0 := by
          rw [Nat.shiftRight_eq_div_pow]
          omega
        rw [hb8, Nat.zero_or]
        exact ih t ht (by simpa using hk)

/-- Storing `loadLE l ||| (w <<< 8·|l|)` writes the bytes of `l` followed by
the low bytes of `w`: the core fact behind the fill-masking in
`read_slice_padded`. -/
theorem storeLE_or_fill (l : List Nat) (w k : Nat) (h : allBytes l)
    (hk : l.length ≤ k) :
    storeLE k (loadLE l ||| (w <<< (8 * l.length)) % 2 ^ (8 * k)) =
      l ++ storeLE (k - l.length) w := by
  induction l generalizing k with
  | nil =>
    simp only [loadLE, Nat.zero_or, List.length_nil, Nat.mul_zero,
      Nat.shiftLeft_zero, List.nil_append, Nat.sub_zero]
    exact storeLE_mod k w
  | cons b t ih =>
    cases k with
    | zero => simp at hk
    | succ k =>
      have hb : b < 256 := h b (by simp)
      have ht : allBytes t := fun y hy => h y (by simp [hy])
      simp only [storeLE, loadLE, List.cons_append, List.length_cons]
      congr 1
      · rw [two_pow_eight, or_mod_two_pow, or_mod_two_pow,
          shiftLeft_mod_two_pow _ 8 8 (by omega)]
        have h2 : (w <<< (8 * (t.length + 1))) % 2 ^ (8 * (k + 1)) % 2 ^ 8 = 0 := by
          rw [Nat.mod_mod_of_dvd _ (pow_dvd_pow 2 (by omega)),
            shiftLeft_mod_two_pow _ 8 _ (by omega)]
        rw [h2, Nat.or_zero, Nat.or_zero]
        exact Nat.mod_eq_of_lt (two_pow_eight ▸ hb)
      · rw [or_shiftRight, or_shiftRight, shiftLeft_shiftRight_self]
        have hb8 : b >>> 8 = 0 := by
          rw [Nat.shiftRight_eq_div_pow]
          omega
        have hw : ((w <<< (8 * (t.length + 1))) % 2 ^ (8 * (k + 1))) >>> 8 =
            (w <<< (8 * t.length)) % 2 ^ (8 * k) := by
          have h3 := shiftLeft_mod_two_pow_shiftRight w t.length (k + 1) (by omega)
          rw [show 8 * t.length + 8 = 8 * (t.length + 1) by ring] at h3
          rw [h3, show 8 * (k + 1) - 8 = 8 * k by omega]
        rw [hb8, Nat.zero_or, hw, show k + 1 - (t.length + 1) = k - t.length by omega]
        exact ih k ht (by simpa using hk)

theorem storeLE_replicate (k m z : Nat) (hz : z < 256) (hk : k ≤ m) :
    storeLE k (loadLE (List.replicate m z)) = List.replicate k z := by
  have h : allBytes (List.replicate m z) := by
    intro b hb
    rw [List.eq_of_mem_replicate hb]
    exact hz
  rw [storeLE_loadLE_take k _ h (by simpa using hk), List.take_replicate]
  congr 1
  omega

/-! ### `read_slice_padded` correctness -/

theorem getD_drop (l : List Nat) (o j : Nat) :
    (l.drop o).getD j 0 = l.getD (o + j) 0 := by
  simp [List.getD_eq_getElem?_getD, List.getElem?_drop]

theorem allBytes_take (l : List Nat) (k : Nat) (h : allBytes l) :
    allBytes (l.take k) := fun b hb => h b (List.mem_of_mem_take hb)

theorem allBytes_drop (l : List Nat) (k : Nat) (h : allBytes l) :
    allBytes (l.drop k) := fun b hb => h b (List.mem_of_mem_drop hb)

theorem writeBytes_append (A B st : List Nat) (o : Nat) (ho : A.length = o) :
    writeBytes (A ++ B) o st = A ++ st ++ B.drop st.length := by
  subst ho
  unfold writeBytes
  rw [List.take_left, List.drop_append_eq_append_drop,
    List.drop_eq_nil_of_le (by omega), Nat.add_sub_cancel_left,
    List.nil_append]

theorem copyBlocks_spec (slice buf : List Nat) (k : Nat) (h : allBytes slice)
    (hk : 16 * k ≤ slice.length) (hb : 16 * k ≤ buf.length) :
    copyBlocks buf slice k = slice.take (16 * k) ++ buf.drop (16 * k) := by
  induction k with
  | zero => simp [copyBlocks]
  | succ k ih =>
    have hk' : 16 * k ≤ slice.length := by omega
    have hb' : 16 * k ≤ buf.length := by omega
    have hlen : ((slice.drop (16 * k)).take 16).length = 16 := by
      simp only [List.length_take, List.length_drop]
      omega
    have hround : storeLE 16 (loadLE ((slice.drop (16 * k)).take 16)) =
        (slice.drop (16 * k)).take 16 := by
      rw [storeLE_loadLE_take 16 _ (allBytes_take _ _ (allBytes_drop _ _ h))
        (by rw [hlen]), List.take_take]
      simp
    have hA : (slice.take (16 * k)).length = 16 * k := by simp; omega
    simp only [copyBlocks, ih hk' hb', hround]
    rw [writeBytes_append _ _ _ _ hA, hlen, List.drop_drop, ← List.take_add]
    rw [show 16 * k + 16 = 16 * (k + 1) by ring]

theorem writeBytes_fill (slice : List Nat) (n z o k : Nat)
    (ho : o ≤ slice.length) (hL : slice.length < n) (hk : o + k ≤ n)
    (hlen : slice.length ≤ o + k) :
    writeBytes (slice.take o ++ List.replicate (n - o) z) o
        (slice.drop o ++ List.replicate (k - (slice.length - o)) z) =
      slice ++ List.replicate (n - slice.length) z := by
  have hto : (slice.take o).length = o := by simp; omega
  have hst : (slice.drop o ++ List.replicate (k - (slice.length - o)) z).length = k := by
    simp; omega
  rw [writeBytes_append _ _ _ _ hto, hst, List.drop_replicate,
    ← List.append_assoc, List.take_append_drop, List.append_assoc,
    List.append_replicate_replicate]
  congr 2
  omega

theorem shiftLeft_lt_two_pow (a p s : Nat) (h : a < 2 ^ p) : a <<< s < 2 ^ (p + s) := by
  rw [Nat.shiftLeft_eq, Nat.pow_add]
  exact (Nat.mul_lt_mul_right (by positivity)).mpr h

/-- The two-overlapping-loads tier of `read_slice_padded` (half-width `hw` is
8 or 4, word size `k` is 16 or 8 bytes). -/
theorem storeLE_fill_tier (part : List Nat) (z hw k : Nat) (hb : allBytes part)
    (hz : z < 256) (hhw : hw ≤ part.length) (h2 : part.length ≤ 2 * hw)
    (hk : part.length ≤ k) :
    storeLE k ((loadLE (part.take hw) |||
        (loadLE (part.drop (part.length - hw)) <<< ((part.length - hw) * 8)) % 2 ^ (8 * k) |||
        (loadLE (List.replicate k z) <<< (part.length * 8)) % 2 ^ (8 * k)) % 2 ^ (8 * k)) =
      part ++ List.replicate (k - part.length) z := by
  have hdl : (part.drop (part.length - hw)).length = hw := by simp; omega
  have hhi : loadLE (part.drop (part.length - hw)) < 2 ^ (8 * hw) := by
    have h0 := loadLE_lt _ (allBytes_drop part (part.length - hw) hb)
    rw [hdl] at h0
    exact h0
  have hsh : loadLE (part.drop (part.length - hw)) <<< ((part.length - hw) * 8) <
      2 ^ (8 * k) := by
    calc _ < 2 ^ (8 * hw + (part.length - hw) * 8) := shiftLeft_lt_two_pow _ _ _ hhi
      _ ≤ 2 ^ (8 * k) := Nat.pow_le_pow_right (by omega) (by omega)
  rw [Nat.mod_eq_of_lt hsh, show (part.length - hw) * 8 = 8 * (part.length - hw) by ring,
    loadLE_overlap part (part.length - hw) hw hb (by omega) (by omega),
    show part.length * 8 = 8 * part.length by ring,
    storeLE_mod, storeLE_or_fill part _ k hb hk,
    storeLE_replicate _ k z hz (by omega)]

/-- The three-single-byte-loads tier: the OR of the three positioned byte
loads reconstructs the little-endian value of the 1-to-3-byte remainder. -/
theorem small_d_eq (part : List Nat) (hb : allBytes part) (h1 : 1 ≤ part.length)
    (h3 : part.length ≤ 3) :
    part.getD 0 0 ||| (part.getD (part.length / 2) 0 <<< (part.length / 2 * 8)) % 2 ^ 32 |||
      (part.getD (part.length - 1) 0 <<< ((part.length - 1) * 8)) % 2 ^ 32 = loadLE part := by
  rcases part with _ | ⟨a, _ | ⟨b, _ | ⟨c, _ | ⟨d, t⟩⟩⟩⟩
  · simp at h1
  · have ha : a < 256 := hb a (by simp)
    simp only [List.getD_cons_zero, List.length_cons, List.length_nil]
    norm_num
    rw [Nat.mod_eq_of_lt (by omega)]
    simp [loadLE, Nat.or_self]
  · have ha : a < 256 := hb a (by simp)
    have hbb : b < 256 := hb b (by simp)
    simp only [List.getD_cons_zero, List.getD_cons_succ, List.length_cons,
      List.length_nil]
    norm_num
    have hb8 : b <<< 8 % 4294967296 = b <<< 8 := Nat.mod_eq_of_lt (by
      rw [Nat.shiftLeft_eq]
      norm_num
      omega)
    rw [hb8]
    simp [loadLE, Nat.or_assoc, Nat.or_self]
  · have ha : a < 256 := hb a (by simp)
    have hbb : b < 256 := hb b (by simp)
    have hc : c < 256 := hb c (by simp)
    simp only [List.getD_cons_zero, List.getD_cons_succ, List.length_cons,
      List.length_nil]
    norm_num
    have hb8 : b <<< 8 % 4294967296 = b <<< 8 := Nat.mod_eq_of_lt (by
      rw [Nat.shiftLeft_eq]
      norm_num
      omega)
    have hc16 : c <<< 16 % 4294967296 = c <<< 16 := Nat.mod_eq_of_lt (by
      rw [Nat.shiftLeft_eq]
      norm_num
      omega)
    rw [hb8, hc16]
    simp only [loadLE, Nat.zero_shiftLeft, Nat.or_zero, or_shiftLeft,
      Nat.or_assoc]
    rw [← Nat.shiftLeft_add]
  · have ht4 : t.length + 4 ≤ 3 := by simpa using h3
    omega

theorem storeLE_fill_small (l : List Nat) (z : Nat) (hb : allBytes l) (hz : z < 256)
    (h : l.length ≤ 4) :
    storeLE 4 ((loadLE l ||| (loadLE (List.replicate 4 z) <<< (l.length * 8)) % 2 ^ 32) %
        2 ^ 32) = l ++ List.replicate (4 - l.length) z := by
  rw [show (2 : Nat) ^ 32 = 2 ^ (8 * 4) by norm_num,
    show l.length * 8 = 8 * l.length by ring, storeLE_mod,
    storeLE_or_fill l _ 4 hb h, storeLE_replicate _ 4 z hz (by omega)]

/-- Functional contract of `read_slice_padded` (claim C7): the result is the
slice followed by fill bytes. -/
theorem read_slice_padded_spec (n z : Nat) (slice : List Nat) (hn : 16 ∣ n)
    (h1 : 1 ≤ slice.length) (h2 : slice.length < n) (hb : allBytes slice)
    (hz : z < 256) :
    read_slice_padded n z slice = slice ++ List.replicate (n - slice.length) z := by
  obtain ⟨q, hq⟩ := hn
  have ho16 : 16 * (slice.length / 16) + 16 ≤ n := by omega
  have hoL : 16 * (slice.length / 16) ≤ slice.length := by omega
  have hbuf1 : (if 16 ≤ slice.length then
      copyBlocks (List.replicate n z) slice (slice.length / 16)
      else List.replicate n z) =
      slice.take (16 * (slice.length / 16)) ++
        List.replicate (n - 16 * (slice.length / 16)) z := by
    by_cases hc : 16 ≤ slice.length
    · rw [if_pos hc, copyBlocks_spec slice _ _ hb (by omega) (by simp; omega),
        List.drop_replicate]
    · rw [if_neg hc, show slice.length / 16 = 0 by omega]
      simp
  unfold read_slice_padded
  simp only []
  rw [hbuf1]
  have hplen : (slice.drop (16 * (slice.length / 16))).length = slice.length % 16 := by
    simp
    omega
  have hpb : allBytes (slice.drop (16 * (slice.length / 16))) := allBytes_drop _ _ hb
  by_cases h8 : 8 ≤ slice.length % 16
  · rw [if_pos h8]
    have hdd : slice.drop (16 * (slice.length / 16) + (slice.length % 16 - 8)) =
        (slice.drop (16 * (slice.length / 16))).drop (slice.length % 16 - 8) := by
      rw [List.drop_drop]
    have htk : ((slice.drop (16 * (slice.length / 16))).drop (slice.length % 16 - 8)).take 8 =
        (slice.drop (16 * (slice.length / 16))).drop (slice.length % 16 - 8) := by
      apply List.take_of_length_le
      simp
      omega
    have htk8 : (slice.drop (16 * (slice.length / 16))).take 8 =
        (slice.drop (16 * (slice.length / 16))).take 8 := rfl
    rw [hdd, htk, show (2 : Nat) ^ 128 = 2 ^ (8 * 16) by norm_num,
      show slice.length % 16 - 8 =
        (slice.drop (16 * (slice.length / 16))).length - 8 by rw [hplen],
      show slice.length % 16 = (slice.drop (16 * (slice.length / 16))).length by
        rw [hplen],
      storeLE_fill_tier _ z 8 16 hpb hz (by rw [hplen]; omega) (by rw [hplen]; omega)
        (by rw [hplen]; omega), hplen,
      show (16 : Nat) - slice.length % 16 =
        16 - (slice.length - 16 * (slice.length / 16)) by omega]
    exact writeBytes_fill slice n z _ 16 hoL h2 ho16 (by omega)
  · rw [if_neg h8]
    by_cases h4 : 4 ≤ slice.length % 16
    · rw [if_pos h4]
      have hdd : slice.drop (16 * (slice.length / 16) + (slice.length % 16 - 4)) =
          (slice.drop (16 * (slice.length / 16))).drop (slice.length % 16 - 4) := by
        rw [List.drop_drop]
      have htk : ((slice.drop (16 * (slice.length / 16))).drop
            (slice.length % 16 - 4)).take 4 =
          (slice.drop (16 * (slice.length / 16))).drop (slice.length % 16 - 4) := by
        apply List.take_of_length_le
        simp
        omega
      rw [hdd, htk, show (2 : Nat) ^ 64 = 2 ^ (8 * 8) by norm_num,
        show slice.length % 16 - 4 =
          (slice.drop (16 * (slice.length / 16))).length - 4 by rw [hplen],
        show slice.length % 16 = (slice.drop (16 * (slice.length / 16))).length by
          rw [hplen],
        storeLE_fill_tier _ z 4 8 hpb hz (by rw [hplen]; omega) (by rw [hplen]; omega)
          (by rw [hplen]; omega), hplen,
        show (8 : Nat) - slice.length % 16 =
          8 - (slice.length - 16 * (slice.length / 16)) by omega]
      exact writeBytes_fill slice n z _ 8 hoL h2 (by omega) (by omega)
    · by_cases hone : 1 ≤ slice.length % 16
      · rw [if_neg h4, if_pos hone]
        have e0 : slice.getD (16 * (slice.length / 16)) 0 =
            (slice.drop (16 * (slice.length / 16))).getD 0 0 := by
          rw [getD_drop]
          norm_num
        have e1 : slice.getD (16 * (slice.length / 16) + slice.length % 16 / 2) 0 =
            (slice.drop (16 * (slice.length / 16))).getD (slice.length % 16 / 2) 0 := by
          rw [getD_drop]
        have e2 : slice.getD (16 * (slice.length / 16) + (slice.length % 16 - 1)) 0 =
            (slice.drop (16 * (slice.length / 16))).getD (slice.length % 16 - 1) 0 := by
          rw [getD_drop]
        rw [e0, e1, e2,
          show slice.length % 16 = (slice.drop (16 * (slice.length / 16))).length by
            rw [hplen],
          small_d_eq _ hpb (by rw [hplen]; omega) (by rw [hplen]; omega),
          storeLE_fill_small _ z hpb hz (by rw [hplen]; omega), hplen,
          show (4 : Nat) - slice.length % 16 =
            4 - (slice.length - 16 * (slice.length / 16)) by omega]
        exact writeBytes_fill slice n z _ 4 hoL h2 (by omega) (by omega)
      · rw [if_neg h4, if_neg hone]
        have hL16 : slice.length % 16 = 0 := by omega
        have ho : 16 * (slice.length / 16) = slice.length := by omega
        rw [ho, List.take_length]

/-! ### Byte-level facts about the kernels (finite checks) -/

set_option maxRecDepth 40000 in
theorem decHash_lt : ∀ c, c < 256 →
    ((c >>> 4) + (if c = 47 then 255 else 0)) % 256 < 16 := by decide

set_option maxRecDepth 40000 in
theorem decNibble_lt : ∀ c, c < 256 → c &&& 15 < 16 ∧ c >>> 4 < 16 := by decide

set_option maxRecDepth 40000 in
theorem decValid_byte : ∀ c, c < 256 →
    ((loLut.getD (c &&& 15) 0 &&& hiLut.getD (c >>> 4) 0) == 0) = isB64 c := by decide

set_option maxRecDepth 40000 in
theorem decSextet_byte : ∀ c, c < 256 → isB64 c = true →
    (c + decOffsets.getD ((((c >>> 4) + (if c = 47 then 255 else 0)) % 256) % 8) 0) %
      256 = sextetOf c := by decide

set_option maxRecDepth 40000 in
theorem sextetOf_lt : ∀ c, c < 256 → sextetOf c < 64 := by decide

set_option maxRecDepth 40000 in
theorem sextetOf_b64char : ∀ s, s < 64 → sextetOf (b64char s) = s := by decide

set_option maxRecDepth 40000 in
theorem isB64_b64char : ∀ s, s < 64 → isB64 (b64char s) = true := by decide

set_option maxRecDepth 40000 in
theorem b64char_lt : ∀ s, s < 64 → b64char s < 128 ∧ b64char s ≠ 61 := by decide

set_option maxRecDepth 40000 in
theorem repack0 : ∀ s, s < 64 → ∀ t, t < 64 →
    ((s <<< 2) % 65536) % 256 ||| (((t <<< 4) % 65536) >>> 8) % 256 =
      s * 4 + t / 16 := by decide

set_option maxRecDepth 40000 in
theorem repack1 : ∀ s, s < 64 → ∀ t, t < 64 →
    ((s <<< 4) % 65536) % 256 ||| (((t <<< 6) % 65536) >>> 8) % 256 =
      s % 16 * 16 + t / 4 := by decide

set_option maxRecDepth 40000 in
theorem repack2 : ∀ s, s < 64 → ∀ t, t < 64 →
    ((s <<< 6) % 65536) % 256 ||| (((t <<< 8) % 65536) >>> 8) % 256 =
      s % 4 * 64 + t := by decide

/-! ### Swizzle and reduction lemmas -/

theorem swizzle16_lookup (n : Nat) (h16 : 16 ≤ n) (table : List Nat)
    (idx : Nat → Nat) (i : Nat) (hi : i < n) (hidx : idx i < 16) :
    swizzle 16 n (fun j => table.getD j 0) idx i = table.getD (idx i) 0 := by
  unfold swizzle swizzleDyn resizeFun
  rcases Nat.lt_or_ge 16 n with hlt | hge
  · rw [if_pos hlt]
    have h1 : idx i < n := by omega
    have h2 : idx i < min 16 n := by omega
    simp [h1, h2]
  · have hn : n = 16 := by omega
    subst hn
    rw [if_neg (lt_irrefl 16)]
    simp [hi, hidx]

theorem or_eq_zero_iff (a b : Nat) : a ||| b = 0 ↔ a = 0 ∧ b = 0 := by
  constructor
  · intro h
    have ht : ∀ i, (a ||| b).testBit i = false := by
      rw [h]
      simp
    constructor
    · apply Nat.zero_of_testBit_eq_false
      intro i
      have h1 := ht i
      simp only [Nat.testBit_or, Bool.or_eq_false_iff] at h1
      exact h1.1
    · apply Nat.zero_of_testBit_eq_false
      intro i
      have h1 := ht i
      simp only [Nat.testBit_or, Bool.or_eq_false_iff] at h1
      exact h1.2
  · rintro ⟨rfl, rfl⟩
    rfl

theorem foldr_or_eq_zero (l : List Nat) :
    l.foldr (· ||| ·) 0 = 0 ↔ ∀ x ∈ l, x = 0 := by
  induction l with
  | nil => simp
  | cons x t ih =>
    simp only [List.foldr_cons, or_eq_zero_iff, List.mem_cons, ih]
    constructor
    · rintro ⟨hx, ht⟩ y (rfl | hy)
      · exact hx
      · exact ht y hy
    · intro h
      exact ⟨h x (Or.inl rfl), fun y hy => h y (Or.inr hy)⟩

theorem reduceOr_eq_zero (n : Nat) (v : Nat → Nat) :
    reduceOr n v = 0 ↔ ∀ i, i < n → v i = 0 := by
  unfold reduceOr
  rw [foldr_or_eq_zero]
  constructor
  · intro h i hi
    exact h (v i) (List.mem_map_of_mem v (List.mem_range.mpr hi))
  · rintro h x hx
    obtain ⟨i, hi, rfl⟩ := List.mem_map.mp hx
    exact h i (List.mem_range.mp hi)

/-! ### `invert_index` characterization -/

theorem invertIndexGo_expand (n j : Nat) : ∀ m,
    invertIndexGo n (fun i => i + i / 3) j m =
      if 3 * (j / 4) + j % 4 < m ∧ j % 4 ≠ 3 ∧ j < n then 3 * (j / 4) + j % 4
      else n := by
  intro m
  induction m with
  | zero => simp [invertIndexGo]
  | succ m ih =>
    simp only [invertIndexGo, ih]
    split_ifs <;> omega

theorem invertIndex_expand (n j : Nat) :
    invertIndex n (fun i => i + i / 3) j =
      if 3 * (j / 4) + j % 4 < n ∧ j % 4 ≠ 3 ∧ j < n then 3 * (j / 4) + j % 4
      else n := by
  unfold invertIndex
  rw [invertIndexGo_expand]

theorem simdDecode_snd (n : Nat) (h16 : 16 ≤ n) (ascii : Nat → Nat)
    (hb : ∀ i, i < n → ascii i < 256) :
    (simdDecode n ascii).2 = true ↔ ∀ i, i < n → isB64 (ascii i) = true := by
  simp only [simdDecode]
  rw [beq_iff_eq, reduceOr_eq_zero]
  constructor
  · intro h i hi
    have h1 := h i hi
    rw [swizzle16_lookup n h16 loLut _ i hi (decNibble_lt _ (hb i hi)).1,
      swizzle16_lookup n h16 hiLut _ i hi (decNibble_lt _ (hb i hi)).2] at h1
    have h2 := decValid_byte _ (hb i hi)
    rw [← h2, h1]
    rfl
  · intro h i hi
    rw [swizzle16_lookup n h16 loLut _ i hi (decNibble_lt _ (hb i hi)).1,
      swizzle16_lookup n h16 hiLut _ i hi (decNibble_lt _ (hb i hi)).2]
    have h2 := decValid_byte _ (hb i hi)
    rw [h i hi] at h2
    exact beq_iff_eq.mp h2

theorem simdDecode_lane (n : Nat) (hn : 16 ∣ n) (ascii : Nat → Nat)
    (hb : ∀ i, i < n → ascii i < 256) (hv : ∀ i, i < n → isB64 (ascii i) = true)
    (i : Nat) (hi : i < n / 4 * 3) :
    (simdDecode n ascii).1 i =
      if i % 3 = 0 then
        sextetOf (ascii (4 * (i / 3))) * 4 + sextetOf (ascii (4 * (i / 3) + 1)) / 16
      else if i % 3 = 1 then
        sextetOf (ascii (4 * (i / 3) + 1)) % 16 * 16 +
          sextetOf (ascii (4 * (i / 3) + 2)) / 4
      else
        sextetOf (ascii (4 * (i / 3) + 2)) % 4 * 64 +
          sextetOf (ascii (4 * (i / 3) + 3)) := by
  obtain ⟨q, hq⟩ := hn
  have h16 : 16 ≤ n := by omega
  have hjlt : i + i / 3 < n - 1 := by omega
  have hsx : ∀ k, k < n →
      (ascii k + swizzleDyn n (fun j => decOffsets.getD (j % 8) 0)
        (fun i => ((ascii i >>> 4) + (if ascii i = 47 then 255 else 0)) % 256) k) %
        256 = sextetOf (ascii k) := by
    intro k hk
    unfold swizzleDyn
    rw [if_pos (lt_of_lt_of_le (decHash_lt _ (hb k hk)) h16)]
    exact decSextet_byte _ (hb k hk) (hv k hk)
  simp only [simdDecode]
  rw [if_pos (show i + i / 3 < n by omega)]
  rw [Nat.mod_eq_of_lt (show i + i / 3 + 1 < n by omega)]
  rw [hsx (i + i / 3) (by omega), hsx (i + i / 3 + 1) (by omega)]
  have h3 : i % 3 = 0 ∨ i % 3 = 1 ∨ i % 3 = 2 := by omega
  rcases h3 with hr | hr | hr
  · rw [show (i + i / 3) % 4 = 0 by omega, show (i + i / 3 + 1) % 4 = 1 by omega]
    rw [show laneShift.getD 0 0 = 2 from rfl, show laneShift.getD 1 0 = 4 from rfl]
    rw [show i + i / 3 = 4 * (i / 3) by omega,
      show 4 * (i / 3) + 1 = 4 * (i / 3) + 1 from rfl]
    rw [repack0 _ (sextetOf_lt _ (hb _ (by omega))) _ (sextetOf_lt _ (hb _ (by omega))),
      if_pos hr]
  · rw [show (i + i / 3) % 4 = 1 by omega, show (i + i / 3 + 1) % 4 = 2 by omega]
    rw [show laneShift.getD 1 0 = 4 from rfl, show laneShift.getD 2 0 = 6 from rfl]
    rw [show i + i / 3 = 4 * (i / 3) + 1 by omega,
      show 4 * (i / 3) + 1 + 1 = 4 * (i / 3) + 2 by ring]
    rw [repack1 _ (sextetOf_lt _ (hb _ (by omega))) _ (sextetOf_lt _ (hb _ (by omega))),
      if_neg (by omega), if_pos hr]
  · rw [show (i + i / 3) % 4 = 2 by omega, show (i + i / 3 + 1) % 4 = 3 by omega]
    rw [show laneShift.getD 2 0 = 6 from rfl, show laneShift.getD 3 0 = 8 from rfl]
    rw [show i + i / 3 = 4 * (i / 3) + 2 by omega,
      show 4 * (i / 3) + 2 + 1 = 4 * (i / 3) + 3 by ring]
    rw [repack2 _ (sextetOf_lt _ (hb _ (by omega))) _ (sextetOf_lt _ (hb _ (by omega))),
      if_neg (by omega), if_neg (by omega)]

set_option maxRecDepth 40000 in
theorem enc0 : ∀ a, a < 256 → (((a &&& 252) % 65536) >>> 2) % 256 = a / 4 := by decide

set_option maxRecDepth 40000 in
theorem and3_eq_mod (a : Nat) : a &&& 3 = a % 4 := by
  have h : (3 : Nat) = 2 ^ 2 - 1 := by norm_num
  rw [h, Nat.and_pow_two_sub_one_eq_mod]

theorem and15_eq_mod (a : Nat) : a &&& 15 = a % 16 := by
  have h : (15 : Nat) = 2 ^ 4 - 1 := by norm_num
  rw [h, Nat.and_pow_two_sub_one_eq_mod]

theorem and63_eq_mod (a : Nat) : a &&& 63 = a % 64 := by
  have h : (63 : Nat) = 2 ^ 6 - 1 := by norm_num
  rw [h, Nat.and_pow_two_sub_one_eq_mod]

set_option maxRecDepth 40000 in
theorem enc1 : ∀ m, m < 4 → ∀ b, b < 256 →
    ((((b &&& 240) ||| ((m <<< 8) % 65536)) % 65536) >>> 4) % 256 =
      m * 16 + b / 16 := by decide

set_option maxRecDepth 40000 in
theorem enc2 : ∀ m, m < 16 → ∀ c, c < 256 →
    ((((c &&& 192) ||| ((m <<< 8) % 65536)) % 65536) >>> 6) % 256 =
      m * 4 + c / 64 := by decide

set_option maxRecDepth 40000 in
theorem enc3 : ∀ m, m < 64 →
    ((((m <<< 8) % 65536) % 65536) >>> 8) % 256 = m := by decide

set_option maxRecDepth 40000 in
theorem encHash_lt : ∀ s, s < 64 →
    (((s - 10) + (if 52 ≤ s then 15 else 0) + (if 62 ≤ s then 28 else 0)) % 256) >>> 4 <
      16 := by decide

set_option maxRecDepth 40000 in
theorem encChar : ∀ s, s < 64 →
    (s + 256 - encOffsets.getD (((((s - 10) + (if 52 ≤ s then 15 else 0) +
      (if 62 ≤ s then 28 else 0)) % 256) >>> 4) % 8) 0) % 256 = b64char s := by decide

theorem simdEncode_lane (n : Nat) (hn : 16 ∣ n) (data : Nat → Nat)
    (hb : ∀ i, i < n / 4 * 3 → data i < 256) (j : Nat) (hj : j < n) :
    simdEncode n data j = b64char (specSextet data j) := by
  obtain ⟨q, hq⟩ := hn
  have h16 : 16 ≤ n := by omega
  have hd : ∀ k, (if invertIndex n (fun i => i + i / 3) k < n then
      data (invertIndex n (fun i => i + i / 3) k) else 0) =
      if k < n ∧ k % 4 ≠ 3 then data (3 * (k / 4) + k % 4) else 0 := by
    intro k
    rw [invertIndex_expand]
    by_cases hc : 3 * (k / 4) + k % 4 < n ∧ k % 4 ≠ 3 ∧ k < n
    · rw [if_pos hc, if_pos (by omega), if_pos (by omega)]
    · rw [if_neg hc, if_neg (lt_irrefl n), if_neg (by omega)]
  simp only [simdEncode, swizzleDyn, hd, specSextet]
  have h40 : j % 4 = 0 ∨ j % 4 = 1 ∨ j % 4 = 2 ∨ j % 4 = 3 := by omega
  have hrotv : 1 ≤ j → (j + n - 1) % n = j - 1 := by
    intro h1
    rw [show j + n - 1 = (j - 1) + n by omega, Nat.add_mod_right,
      Nat.mod_eq_of_lt (by omega)]
  rcases h40 with hr | hr | hr | hr
  · have hrot : ((j + n - 1) % n) % 4 = 3 := by
      rcases Nat.eq_zero_or_pos j with rfl | hpos
      · rw [Nat.zero_add, Nat.mod_eq_of_lt (show n - 1 < n by omega)]
        omega
      · rw [hrotv hpos]
        omega
    rw [hr, hrot]
    rw [if_pos (show j < n ∧ (0 : Nat) ≠ 3 from ⟨hj, by decide⟩),
      if_neg (show ¬((j + n - 1) % n < n ∧ (3 : Nat) ≠ 3) by simp)]
    rw [Nat.zero_and, Nat.zero_shiftLeft, Nat.zero_mod, Nat.or_zero]
    simp only [Nat.add_zero]
    rw [show encMask.getD 0 0 = 252 from rfl, show laneShift.getD 0 0 = 2 from rfl]
    have ha := hb (3 * (j / 4)) (by omega)
    simp only [enc0 _ ha]
    rw [if_pos (lt_of_lt_of_le (encHash_lt _ (by omega)) h16), encChar _ (by omega)]
    simp
  · have hrot : (j + n - 1) % n = j - 1 := hrotv (by omega)
    rw [hr, hrot, show (j - 1) % 4 = 0 by omega, show (j - 1) / 4 = j / 4 by omega]
    rw [if_pos (show j < n ∧ (1 : Nat) ≠ 3 from ⟨hj, by decide⟩),
      if_pos (show j - 1 < n ∧ (0 : Nat) ≠ 3 from ⟨by omega, by decide⟩)]
    simp only [Nat.add_zero]
    rw [show encMask.getD 1 0 = 240 from rfl,
      show encMask.getD 0 0 ^^^ 255 = 3 from rfl,
      show laneShift.getD 1 0 = 4 from rfl]
    have ha := hb (3 * (j / 4)) (by omega)
    have hbb := hb (3 * (j / 4) + 1) (by omega)
    simp only [and3_eq_mod]
    simp only [enc1 _ (show data (3 * (j / 4)) % 4 < 4 by omega) _ hbb]
    rw [if_pos (lt_of_lt_of_le (encHash_lt _ (by omega)) h16), encChar _ (by omega)]
    simp
  · have hrot : (j + n - 1) % n = j - 1 := hrotv (by omega)
    rw [hr, hrot, show (j - 1) % 4 = 1 by omega, show (j - 1) / 4 = j / 4 by omega]
    rw [if_pos (show j < n ∧ (2 : Nat) ≠ 3 from ⟨hj, by decide⟩),
      if_pos (show j - 1 < n ∧ (1 : Nat) ≠ 3 from ⟨by omega, by decide⟩)]
    rw [show encMask.getD 2 0 = 192 from rfl,
      show encMask.getD 1 0 ^^^ 255 = 15 from rfl,
      show laneShift.getD 2 0 = 6 from rfl]
    have ha := hb (3 * (j / 4) + 1) (by omega)
    have hbb := hb (3 * (j / 4) + 2) (by omega)
    simp only [and15_eq_mod]
    simp only [enc2 _ (show data (3 * (j / 4) + 1) % 16 < 16 by omega) _ hbb]
    rw [if_pos (lt_of_lt_of_le (encHash_lt _ (by omega)) h16), encChar _ (by omega)]
    simp
  · have hrot : (j + n - 1) % n = j - 1 := hrotv (by omega)
    rw [hr, hrot, show (j - 1) % 4 = 2 by omega, show (j - 1) / 4 = j / 4 by omega]
    rw [if_neg (show ¬(j < n ∧ (3 : Nat) ≠ 3) by simp),
      if_pos (show j - 1 < n ∧ (2 : Nat) ≠ 3 from ⟨by omega, by decide⟩)]
    rw [Nat.zero_and,
      show encMask.getD 2 0 ^^^ 255 = 63 from rfl,
      show laneShift.getD 3 0 = 8 from rfl]
    have ha := hb (3 * (j / 4) + 2) (by omega)
    simp only [and63_eq_mod]
    simp only [Nat.zero_or]
    simp only [enc3 _ (show data (3 * (j / 4) + 2) % 64 < 64 by omega)]
    rw [if_pos (lt_of_lt_of_le (encHash_lt _ (by omega)) h16), encChar _ (by omega)]
    simp

/-! ### Scalar reference function properties -/

theorem getD_cons3 (b0 b1 b2 : Nat) (l : List Nat) (i : Nat) :
    (b0 :: b1 :: b2 :: l).getD (i + 3) 0 = l.getD i 0 := rfl

theorem getD_cons4 (c0 c1 c2 c3 d : Nat) (l : List Nat) (i : Nat) :
    (c0 :: c1 :: c2 :: c3 :: l).getD (i + 4) d = l.getD i d := rfl

theorem specDecodeList_length (A : List Nat) :
    (specDecodeList A).length = decoded_len A.length := by
  induction A using specDecodeList.induct with
  | case1 c0 c1 c2 c3 rest ih =>
    simp only [specDecodeList, List.length_cons, ih, decoded_len]
    omega
  | case2 c0 c1 c2 => simp [specDecodeList, decoded_len]
  | case3 c0 c1 => simp [specDecodeList, decoded_len]
  | case4 c0 => simp [specDecodeList, decoded_len]
  | case5 => simp [specDecodeList, decoded_len]

theorem specDecodeList_append (a b : List Nat) (h : a.length % 4 = 0) :
    specDecodeList (a ++ b) = specDecodeList a ++ specDecodeList b := by
  induction a using specDecodeList.induct with
  | case1 c0 c1 c2 c3 rest ih =>
    have h4 : rest.length % 4 = 0 := by
      simp only [List.length_cons] at h
      omega
    simp only [List.cons_append, specDecodeList, List.append_eq]
    rw [ih h4]
  | case2 c0 c1 c2 => simp at h
  | case3 c0 c1 => simp at h
  | case4 c0 => simp at h
  | case5 => simp [specDecodeList]

theorem specDecodeList_getD (A : List Nat) : ∀ i, i < decoded_len A.length →
    (specDecodeList A).getD i 0 =
      if i % 3 = 0 then
        sextetOf (A.getD (4 * (i / 3)) 65) * 4 + sextetOf (A.getD (4 * (i / 3) + 1) 65) / 16
      else if i % 3 = 1 then
        sextetOf (A.getD (4 * (i / 3) + 1) 65) % 16 * 16 +
          sextetOf (A.getD (4 * (i / 3) + 2) 65) / 4
      else
        sextetOf (A.getD (4 * (i / 3) + 2) 65) % 4 * 64 +
          sextetOf (A.getD (4 * (i / 3) + 3) 65) := by
  induction A using specDecodeList.induct with
  | case1 c0 c1 c2 c3 rest ih =>
    intro i hi
    rcases i with _ | ⟨_ | ⟨_ | i⟩⟩
    · simp [specDecodeList]
    · simp [specDecodeList]
    · simp [specDecodeList]
    · have hi' : i < decoded_len rest.length := by
        simp only [decoded_len, List.length_cons] at hi ⊢
        omega
      have e1 : (specDecodeList (c0 :: c1 :: c2 :: c3 :: rest)).getD (i + 3) 0 =
          (specDecodeList rest).getD i 0 := by
        simp only [specDecodeList]
        exact getD_cons3 _ _ _ _ i
      rw [e1, ih i hi', show (i + 3) % 3 = i % 3 by omega,
        show 4 * ((i + 3) / 3) = 4 * (i / 3) + 4 by omega,
        show 4 * (i / 3) + 4 + 1 = 4 * (i / 3) + 1 + 4 by ring,
        show 4 * (i / 3) + 4 + 2 = 4 * (i / 3) + 2 + 4 by ring,
        show 4 * (i / 3) + 4 + 3 = 4 * (i / 3) + 3 + 4 by ring]
      simp only [getD_cons4]
  | case2 c0 c1 c2 =>
    intro i hi
    have h2 : i < 2 := by
      simp only [decoded_len, List.length_cons, List.length_nil] at hi
      omega
    interval_cases i <;> simp [specDecodeList]
  | case3 c0 c1 =>
    intro i hi
    have h1 : i < 1 := by
      simp only [decoded_len, List.length_cons, List.length_nil] at hi
      omega
    interval_cases i
    simp [specDecodeList, sextetOf]
  | case4 c0 =>
    intro i hi
    have h1 : i < 1 := by
      simp only [decoded_len, List.length_cons, List.length_nil] at hi
      omega
    interval_cases i
    simp [specDecodeList, sextetOf]
  | case5 =>
    intro i hi
    simp only [decoded_len, List.length_nil] at hi
    omega

theorem specEncodeBody_length (x : List Nat) :
    (specEncodeBody x).length = encoded_len x.length := by
  induction x using specEncodeBody.induct with
  | case1 d0 d1 d2 rest ih =>
    simp only [specEncodeBody, List.length_cons, ih, encoded_len]
    omega
  | case2 d0 d1 => simp [specEncodeBody, encoded_len]
  | case3 d0 => simp [specEncodeBody, encoded_len]
  | case4 => simp [specEncodeBody, encoded_len]

theorem specEncodeBody_append (a b : List Nat) (h : a.length % 3 = 0) :
    specEncodeBody (a ++ b) = specEncodeBody a ++ specEncodeBody b := by
  induction a using specEncodeBody.induct with
  | case1 d0 d1 d2 rest ih =>
    have h3 : rest.length % 3 = 0 := by
      simp only [List.length_cons] at h
      omega
    simp only [List.cons_append, specEncodeBody, List.append_eq]
    rw [ih h3]
  | case2 d0 d1 => simp at h
  | case3 d0 => simp at h
  | case4 => simp [specEncodeBody]

theorem getD_cons3_of (b0 b1 b2 d : Nat) (l : List Nat) (i : Nat) :
    (b0 :: b1 :: b2 :: l).getD (i + 3) d = l.getD i d := rfl

theorem specEncodeBody_getD (x : List Nat) : ∀ j, j < encoded_len x.length →
    (specEncodeBody x).getD j 0 = b64char (specSextet (fun i => x.getD i 0) j) := by
  induction x using specEncodeBody.induct with
  | case1 d0 d1 d2 rest ih =>
    intro j hj
    rcases j with _ | ⟨_ | ⟨_ | ⟨_ | j⟩⟩⟩
    · simp [specEncodeBody, specSextet]
    · simp [specEncodeBody, specSextet]
    · simp [specEncodeBody, specSextet]
    · simp [specEncodeBody, specSextet]
    · have hj' : j < encoded_len rest.length := by
        simp only [encoded_len, List.length_cons] at hj ⊢
        omega
      have e1 : (specEncodeBody (d0 :: d1 :: d2 :: rest)).getD (j + 4) 0 =
          (specEncodeBody rest).getD j 0 := by
        simp only [specEncodeBody]
        exact getD_cons4 _ _ _ _ _ _ j
      rw [e1, ih j hj']
      simp only [specSextet]
      rw [show (j + 4) % 4 = j % 4 by omega,
        show 3 * ((j + 4) / 4) = 3 * (j / 4) + 3 by omega,
        show 3 * (j / 4) + 3 + 1 = 3 * (j / 4) + 1 + 3 by ring,
        show 3 * (j / 4) + 3 + 2 = 3 * (j / 4) + 2 + 3 by ring]
      simp only [getD_cons3_of]
  | case2 d0 d1 =>
    intro j hj
    have h3 : j < 3 := by
      simp only [encoded_len, List.length_cons, List.length_nil] at hj
      omega
    interval_cases j <;> simp [specEncodeBody, specSextet]
  | case3 d0 =>
    intro j hj
    have h2 : j < 2 := by
      simp only [encoded_len, List.length_cons, List.length_nil] at hj
      omega
    interval_cases j <;> simp [specEncodeBody, specSextet]
  | case4 =>
    intro j hj
    simp only [encoded_len, List.length_nil] at hj
    omega

/-! ### Vector-to-list kernel lemmas -/

theorem lanes_length (n : Nat) (v : Nat → Nat) : (lanes n v).length = n := by
  simp [lanes]

theorem getD_lt_length (l : List Nat) (i d : Nat) (h : i < l.length) :
    l.getD i d = l[i] := by
  simp [List.getD_eq_getElem?_getD, List.getElem?_eq_getElem h]

theorem getD_of_le (l : List Nat) (i d : Nat) (h : l.length ≤ i) : l.getD i d = d := by
  simp [List.getD_eq_getElem?_getD, List.getElem?_eq_none h]

theorem decoded_len_le (L : Nat) : decoded_len L ≤ L := by
  simp only [decoded_len]
  omega

/-- One kernel decode step, list level: the kept lanes of a decoded chunk whose
lanes agree with `A` padded by the fill character `A` (65) are the reference
decoding of `A`. -/
theorem lanes_decode_spec (n : Nat) (hn : 16 ∣ n) (f : Nat → Nat) (A : List Nat)
    (hA : A.length ≤ n) (hb : allBytes A) (hv : A.all isB64 = true)
    (hf : ∀ i, i < n → f i = A.getD i 65) :
    (lanes n ((simdDecode n f).1)).take (decoded_len A.length) = specDecodeList A := by
  obtain ⟨q, hq⟩ := hn
  have hgetD : ∀ i, A.getD i 65 < 256 ∧ isB64 (A.getD i 65) = true := by
    intro i
    by_cases hil : i < A.length
    · rw [getD_lt_length A i 65 hil]
      refine ⟨hb _ (List.getElem_mem hil), ?_⟩
      exact List.all_eq_true.mp hv _ (List.getElem_mem hil)
    · rw [getD_of_le A i 65 (by omega)]
      exact ⟨by omega, by decide⟩
  have hfb : ∀ i, i < n → f i < 256 := fun i hi => hf i hi ▸ (hgetD i).1
  have hfv : ∀ i, i < n → isB64 (f i) = true := fun i hi => hf i hi ▸ (hgetD i).2
  have hdl : decoded_len A.length ≤ n / 4 * 3 := by
    simp only [decoded_len]
    omega
  apply List.ext_getElem
  · simp only [List.length_take, lanes_length, specDecodeList_length]
    have := decoded_len_le A.length
    omega
  · intro i h1 h2
    rw [List.getElem_take]
    have hin : i < n := by
      simp only [List.length_take, lanes_length] at h1
      omega
    have hidl : i < decoded_len A.length := by
      simp only [specDecodeList_length] at h2
      exact h2
    simp only [lanes, List.getElem_map, List.getElem_range]
    rw [simdDecode_lane n ⟨q, hq⟩ f hfb hfv i (by omega)]
    rw [hf (4 * (i / 3)) (by omega), hf (4 * (i / 3) + 1) (by omega),
      hf (4 * (i / 3) + 2) (by omega), hf (4 * (i / 3) + 3) (by omega)]
    rw [← getD_lt_length _ _ 0 h2, specDecodeList_getD A i hidl]

theorem specSextet_congr (f g : Nat → Nat) (j : Nat)
    (h : ∀ i, i < 3 * (j / 4) + 3 → f i = g i) : specSextet f j = specSextet g j := by
  simp only [specSextet]
  rw [h (3 * (j / 4)) (by omega), h (3 * (j / 4) + 1) (by omega),
    h (3 * (j / 4) + 2) (by omega)]

/-- One kernel encode step, list level: the kept lanes of an encoded window
whose low `3/4·n` input lanes agree with `A` zero-padded are the reference
encoding of `A`. -/
theorem lanes_encode_spec (n : Nat) (hn : 16 ∣ n) (f : Nat → Nat) (A : List Nat)
    (hA : A.length ≤ n / 4 * 3) (hb : allBytes A)
    (hf : ∀ i, i < n / 4 * 3 → f i = A.getD i 0) :
    (lanes n (simdEncode n f)).take (encoded_len A.length) = specEncodeBody A := by
  obtain ⟨q, hq⟩ := hn
  have hgetD : ∀ i, A.getD i 0 < 256 := by
    intro i
    by_cases hil : i < A.length
    · rw [getD_lt_length A i 0 hil]
      exact hb _ (List.getElem_mem hil)
    · rw [getD_of_le A i 0 (by omega)]
      omega
  have hfb : ∀ i, i < n / 4 * 3 → f i < 256 := fun i hi => hf i hi ▸ hgetD i
  have hel : encoded_len A.length ≤ n := by
    simp only [encoded_len]
    omega
  apply List.ext_getElem
  · simp only [List.length_take, lanes_length, specEncodeBody_length]
    omega
  · intro j h1 h2
    rw [List.getElem_take]
    have hjn : j < n := by
      simp only [List.length_take, lanes_length] at h1
      omega
    have hjel : j < encoded_len A.length := by
      simp only [specEncodeBody_length] at h2
      exact h2
    simp only [lanes, List.getElem_map, List.getElem_range]
    rw [simdEncode_lane n ⟨q, hq⟩ f hfb j hjn,
      specSextet_congr f (fun i => A.getD i 0) j (fun i hi => hf i (by omega))]
    rw [← getD_lt_length _ _ 0 h2, specEncodeBody_getD A j hjel]

theorem simdDecode_snd_list (n : Nat) (h16 : 16 ≤ n) (f : Nat → Nat) (A : List Nat)
    (hA : A.length ≤ n) (hb : allBytes A)
    (hf : ∀ i, i < n → f i = A.getD i 65) :
    (simdDecode n f).2 = A.all isB64 := by
  have hgetD : ∀ i, A.getD i 65 < 256 := by
    intro i
    by_cases hil : i < A.length
    · rw [getD_lt_length A i 65 hil]
      exact hb _ (List.getElem_mem hil)
    · rw [getD_of_le A i 65 (by omega)]
      omega
  have hfb : ∀ i, i < n → f i < 256 := fun i hi => hf i hi ▸ hgetD i
  have hiff := simdDecode_snd n h16 f hfb
  cases hall : A.all isB64 with
  | true =>
    apply hiff.mpr
    intro i hi
    rw [hf i hi]
    by_cases hil : i < A.length
    · rw [getD_lt_length A i 65 hil]
      exact List.all_eq_true.mp hall _ (List.getElem_mem hil)
    · rw [getD_of_le A i 65 (by omega)]
      decide
  | false =>
    cases h2 : (simdDecode n f).2 with
    | false => rfl
    | true =>
      exfalso
      have hv := hiff.mp h2
      have : A.all isB64 = true := by
        rw [List.all_eq_true]
        intro x hx
        obtain ⟨k, hk, rfl⟩ := List.mem_iff_getElem.mp hx
        have := hv k (by omega)
        rw [hf k (by omega), getD_lt_length A k 65 hk] at this
        exact this
      rw [hall] at this
      exact Bool.false_ne_true this

theorem getD_append_replicate (A : List Nat) (n z i : Nat) (hi : i < n)
    (hA : A.length ≤ n) :
    (A ++ List.replicate (n - A.length) z).getD i 0 = A.getD i z := by
  by_cases h : i < A.length
  · rw [getD_lt_length _ i 0
      (by simp only [List.length_append, List.length_replicate]; omega),
      getD_lt_length A i z h]
    exact List.getElem_append_left h
  · rw [getD_of_le A i z (by omega), getD_lt_length _ i 0
      (by simp only [List.length_append, List.length_replicate]; omega)]
    rw [List.getElem_append_right (by omega)]
    simp

theorem take_append_of_length (acc ext : List Nat) (c k : Nat) (hc : c ≤ acc.length)
    (hk : k ≤ ext.length) :
    (acc.take c ++ ext).take (c + k) = acc.take c ++ ext.take k := by
  have h1 : c + k - (acc.take c).length = k := by
    simp only [List.length_take]
    omega
  rw [List.take_append_eq_append_take,
    List.take_of_length_le (by simp only [List.length_take]; omega), h1]

theorem decoded_len_exact (n : Nat) (h : n % 4 = 0) : decoded_len n = n / 4 * 3 := by
  simp only [decoded_len]
  omega

/-- Invariant of the `chunks_exact` decode loop. -/
theorem decLoop_spec (n : Nat) (hn : 16 ∣ n) (h0 : 0 < n) :
    ∀ fuel rem acc c failed, rem.length ≤ fuel → allBytes rem → c ≤ acc.length →
    (decLoop n fuel rem acc c failed).2.2.2 = rem.drop (n * (rem.length / n)) ∧
    (decLoop n fuel rem acc c failed).2.2.1 =
      (failed || !(rem.take (n * (rem.length / n))).all isB64) ∧
    (decLoop n fuel rem acc c failed).2.1 ≤ (decLoop n fuel rem acc c failed).1.length ∧
    ((rem.take (n * (rem.length / n))).all isB64 = true →
      (decLoop n fuel rem acc c failed).1.take (decLoop n fuel rem acc c failed).2.1 =
        acc.take c ++ specDecodeList (rem.take (n * (rem.length / n)))) := by
  obtain ⟨q, hq⟩ := hn
  intro fuel
  induction fuel with
  | zero =>
    intro rem acc c failed hfuel hbytes hc
    have hnil : rem = [] := List.length_eq_zero.mp (by omega)
    subst hnil
    simp [decLoop, specDecodeList, hc]
  | succ fuel ih =>
    intro rem acc c failed hfuel hbytes hc
    by_cases hlen : n ≤ rem.length
    · have hq0 : rem.length / n = (rem.length - n) / n + 1 :=
        Nat.div_eq_sub_div (by omega) hlen
      have hmul : n * (rem.length / n) = n + n * ((rem.length - n) / n) := by
        rw [hq0]
        ring
      have hchunklen : (rem.take n).length = n := by simp; omega
      have hdroplen : (rem.drop n).length = rem.length - n := by simp
      have hvalid : (simdDecode n (fun i => (rem.take n).getD i 0)).2 =
          (rem.take n).all isB64 := by
        apply simdDecode_snd_list n (by omega) _ _ (le_of_eq hchunklen)
          (allBytes_take _ _ hbytes)
        intro i hi
        show (rem.take n).getD i 0 = (rem.take n).getD i 65
        rw [getD_lt_length _ i 0 (by omega), getD_lt_length _ i 65 (by omega)]
      have hlanes : ((rem.take n).all isB64 = true →
          (lanes n ((simdDecode n (fun i => (rem.take n).getD i 0)).1)).take
            (decoded_len n) = specDecodeList (rem.take n)) := by
        intro hval
        have h1 := lanes_decode_spec n ⟨q, hq⟩ _ (rem.take n) (le_of_eq hchunklen)
          (allBytes_take _ _ hbytes) hval (fun i hi => by
            show (rem.take n).getD i 0 = (rem.take n).getD i 65
            rw [getD_lt_length _ i 0 (by omega), getD_lt_length _ i 65 (by omega)])
        rw [hchunklen] at h1
        exact h1
      have hsplit : rem.take (n * (rem.length / n)) =
          rem.take n ++ (rem.drop n).take (n * ((rem.length - n) / n)) := by
        rw [hmul, List.take_add]
      simp only [decLoop, if_pos hlen]
      have ihr := ih (rem.drop n) (acc.take c ++ lanes n
          ((simdDecode n (fun i => (rem.take n).getD i 0)).1))
        (c + decoded_len n) (failed || !(simdDecode n (fun i => (rem.take n).getD i 0)).2)
        (by rw [hdroplen]; omega) (allBytes_drop _ _ hbytes)
        (by
          simp only [List.length_append, List.length_take, lanes_length]
          rw [decoded_len_exact n (by omega)]
          omega)
      obtain ⟨ih1, ih2, ih3, ih4⟩ := ihr
      refine ⟨?_, ?_, ih3, ?_⟩
      · rw [ih1, hdroplen, List.drop_drop, hmul]
      · rw [ih2, hvalid, hdroplen, hsplit, List.all_append]
        cases failed <;> cases (rem.take n).all isB64 <;>
          cases ((rem.drop n).take (n * ((rem.length - n) / n))).all isB64 <;> simp
      · intro hval
        rw [hsplit, List.all_append] at hval
        have hval1 : (rem.take n).all isB64 = true := by
          revert hval
          cases (rem.take n).all isB64 <;> simp
        have hval2 : ((rem.drop n).take (n * ((rem.length - n) / n))).all isB64 =
            true := by
          revert hval
          cases ((rem.drop n).take (n * ((rem.length - n) / n))).all isB64 <;> simp
        have hres := ih4 (by rw [hdroplen]; exact hval2)
        rw [hdroplen] at hres
        rw [hres, take_append_of_length acc _ c (decoded_len n) hc
          (by rw [lanes_length, decoded_len_exact n (by omega)]; omega),
          hlanes hval1, List.append_assoc]
        congr 1
        rw [hsplit, specDecodeList_append _ _ (by rw [hchunklen]; omega)]
    · have hq0 : rem.length / n = 0 := by
        apply Nat.div_eq_of_lt
        omega
      refine ⟨?_, ?_, ?_, ?_⟩
      · simp [decLoop, if_neg hlen, hq0]
      · simp [decLoop, if_neg hlen, hq0]
      · simpa [decLoop, if_neg hlen] using hc
      · intro h
        simp [decLoop, if_neg hlen, hq0, specDecodeList]

theorem allBytes_stripPad (data : List Nat) (h : allBytes data) :
    allBytes (stripPad data) := by
  unfold stripPad
  split_ifs
  · exact allBytes_take _ _ h
  · exact allBytes_take _ _ h
  · exact h

/-- Full behaviour of `decode_tunable`: it succeeds exactly when every byte of
the pad-stripped input is in the alphabet, in which case it appends the
reference decoding to `out`; on failure `out` is untouched. -/
theorem decode_tunable_spec (n : Nat) (hn : 16 ∣ n) (h0 : 0 < n)
    (data out : List Nat) (hb : allBytes data) :
    decode_tunable n data out =
      if (stripPad data).all isB64 then
        (Except.ok (), out ++ specDecodeList (stripPad data))
      else (Except.error (), out) := by
  have hbs : allBytes (stripPad data) := allBytes_stripPad data hb
  obtain ⟨q, hq⟩ := hn
  obtain ⟨hrem, hfail, hle, hval⟩ := decLoop_spec n ⟨q, hq⟩ h0
    (stripPad data).length (stripPad data) [] 0 false (le_refl _) hbs (by simp)
  unfold decode_tunable
  by_cases hempty : (stripPad data).length = 0
  · rw [if_pos hempty]
    have hnil : stripPad data = [] := List.length_eq_zero.mp hempty
    rw [hnil]
    simp [specDecodeList]
  · rw [if_neg hempty]
    simp only []
    set R := decLoop n (stripPad data).length (stripPad data) [] 0 false with hR
    set k := n * ((stripPad data).length / n) with hk
    have hmd := Nat.mod_add_div (stripPad data).length n
    have hkle : k ≤ (stripPad data).length := by
      rw [hk]
      omega
    have hrestlen : R.2.2.2.length = (stripPad data).length - k := by
      rw [hrem]
      simp
    by_cases hrest : R.2.2.2.length ≠ 0
    · -- remainder chunk present
      have hL1 : 1 ≤ R.2.2.2.length := by omega
      have hLn : R.2.2.2.length < n := by
        rw [hrestlen, hk]
        have h1 := Nat.mod_lt (stripPad data).length h0
        omega
      have hrb : allBytes R.2.2.2 := by
        rw [hrem]
        exact allBytes_drop _ _ hbs
      have hpad := read_slice_padded_spec n 65 R.2.2.2 ⟨q, hq⟩ hL1 hLn hrb (by omega)
      have hf : ∀ i, i < n →
          (read_slice_padded n 65 R.2.2.2).getD i 0 = R.2.2.2.getD i 65 := by
        intro i hi
        rw [hpad]
        exact getD_append_replicate _ n 65 i hi (by omega)
      have hp2 : (simdDecode n
          (fun i => (read_slice_padded n 65 R.2.2.2).getD i 0)).2 =
          R.2.2.2.all isB64 := by
        apply simdDecode_snd_list n (by omega) _ _ (by omega) hrb
        intro i hi
        show (read_slice_padded n 65 R.2.2.2).getD i 0 = R.2.2.2.getD i 65
        exact hf i hi
      have hall : (stripPad data).all isB64 =
          (((stripPad data).take k).all isB64 && R.2.2.2.all isB64) := by
        rw [hrem, ← List.all_append, List.take_append_drop]
      rw [if_pos hrest]
      rw [hfail, hp2]
      by_cases hA : ((stripPad data).take k).all isB64 = true
      · by_cases hB : R.2.2.2.all isB64 = true
        · rw [hA, hB]
          simp only [Bool.not_true, Bool.or_false, Bool.false_or]
          rw [if_neg (by simp), if_pos (by simp [hall, hA, hB])]
          have hlanesval := lanes_decode_spec n ⟨q, hq⟩ _ R.2.2.2 (by omega) hrb hB
            (fun i hi => hf i hi)
          rw [take_append_of_length R.1 _ R.2.1 (decoded_len R.2.2.2.length) hle
            (by rw [lanes_length]; have := decoded_len_le R.2.2.2.length; omega)]
          rw [hval hA, hlanesval]
          simp only [List.take_nil, List.nil_append]
          rw [← specDecodeList_append _ _ (by
              rw [List.length_take]
              have h4 : k % 4 = 0 := Nat.mod_eq_zero_of_dvd
                ⟨4 * q * ((stripPad data).length / n), by rw [hk, hq]; ring⟩
              omega)]
          rw [hrem, List.take_append_drop]
        · rw [Bool.not_eq_true] at hB
          simp [hA, hB, hall]
      · rw [Bool.not_eq_true] at hA
        simp [hA, hall]
    · -- no remainder: the chunks covered everything
      rw [if_neg hrest]
      push_neg at hrest
      have hkeq : (stripPad data).take k = stripPad data := by
        apply List.take_of_length_le
        omega
      rw [hfail, hkeq]
      by_cases hA : (stripPad data).all isB64 = true
      · have hv := hval (by rw [hkeq]; exact hA)
        rw [hkeq] at hv
        simp [hA, hv]
      · rw [Bool.not_eq_true] at hA
        simp [hA]


/-! ### Encode driver correctness -/

theorem getD_take (l : List Nat) (k i d : Nat) (h : i < k) :
    (l.take k).getD i d = l.getD i d := by
  simp [List.getD_eq_getElem?_getD, List.getElem?_take, h]

theorem encoded_len_zero : encoded_len 0 = 0 := by decide

theorem encoded_len_exact3 (m : Nat) (h : m % 3 = 0) :
    encoded_len m = m / 3 * 4 := by
  simp only [encoded_len]
  omega

theorem encoded_len_add (a b : Nat) (h : a % 3 = 0) :
    encoded_len (a + b) = encoded_len a + encoded_len b := by
  simp only [encoded_len]
  omega

theorem encoded_len_le_mul (L u : Nat) (h : L ≤ 3 * u) :
    encoded_len L ≤ 4 * u := by
  simp only [encoded_len]
  omega

/-- Invariant of the main encode window loop: starting at a window boundary
`s` with `n/4*3 ∣ e - s` and every window in bounds, the loop writes the
reference encoding of `data[s..e]` after the committed prefix. -/
theorem encMainLoop_spec (n : Nat) (hn : 16 ∣ n) (data : List Nat)
    (hb : allBytes data) :
    ∀ fuel s e acc c, e - s ≤ fuel → c ≤ acc.length →
      (n / 4 * 3) ∣ (e - s) → s ≤ e → (s < e → e + n / 4 ≤ data.length) →
      (encMainLoop n data fuel s e acc c).2 = c + (e - s) / (n / 4 * 3) * n ∧
      (encMainLoop n data fuel s e acc c).2 ≤
        (encMainLoop n data fuel s e acc c).1.length ∧
      (encMainLoop n data fuel s e acc c).1.take
          (encMainLoop n data fuel s e acc c).2 =
        acc.take c ++ specEncodeBody ((data.drop s).take (e - s)) := by
  obtain ⟨u, hu⟩ := hn
  intro fuel
  induction fuel with
  | zero =>
    intro s e acc c hfuel hc hdvd hse hwin
    have hes : e - s = 0 := by omega
    refine ⟨?_, ?_, ?_⟩
    · simp [encMainLoop, hes]
    · simpa [encMainLoop] using hc
    · simp [encMainLoop, hes, specEncodeBody]
  | succ fuel ih =>
    intro s e acc c hfuel hc hdvd hse hwin
    by_cases hlt : s < e
    · have hu1 : 1 ≤ u := by
        by_contra h
        have hu0 : u = 0 := by omega
        have hz : (0 : Nat) ∣ e - s := by
          have h2 := hdvd
          rw [hu, hu0] at h2
          simpa using h2
        have := zero_dvd_iff.mp hz
        omega
      have hq0 : 0 < n / 4 * 3 := by omega
      have hqe : n / 4 * 3 ≤ e - s := Nat.le_of_dvd (by omega) hdvd
      have hwin2 := hwin hlt
      have hsn : s + n ≤ data.length := by omega
      have hstep : encMainLoop n data (fuel + 1) s e acc c =
          encMainLoop n data fuel (s + n / 4 * 3) e
            (acc.take c ++ lanes n (simdEncode n
              (fun i => ((data.drop s).take n).getD i 0))) (c + n) := by
        simp [encMainLoop, if_pos hlt]
      have hAlen : ((data.drop s).take (n / 4 * 3)).length = n / 4 * 3 := by
        simp only [List.length_take, List.length_drop]
        omega
      have hAb : allBytes ((data.drop s).take (n / 4 * 3)) :=
        allBytes_take _ _ (allBytes_drop _ _ hb)
      have hmatch : ∀ i, i < n / 4 * 3 →
          ((data.drop s).take n).getD i 0 =
            ((data.drop s).take (n / 4 * 3)).getD i 0 := by
        intro i hi
        rw [getD_take _ n i 0 (by omega), getD_take _ (n / 4 * 3) i 0 hi]
      have hEq : encoded_len (n / 4 * 3) = n := by
        simp only [encoded_len]
        omega
      have hlan := lanes_encode_spec n ⟨u, hu⟩ _ ((data.drop s).take (n / 4 * 3))
        (le_of_eq hAlen) hAb hmatch
      rw [hAlen, hEq] at hlan
      have hlanfull : lanes n (simdEncode n
          (fun i => ((data.drop s).take n).getD i 0)) =
          specEncodeBody ((data.drop s).take (n / 4 * 3)) := by
        rw [← hlan]
        exact (List.take_of_length_le (by simp [lanes_length])).symm
      have hacclen : (acc.take c ++ lanes n (simdEncode n
          (fun i => ((data.drop s).take n).getD i 0))).length = c + n := by
        simp only [List.length_append, List.length_take, lanes_length]
        omega
      obtain ⟨ih1, ih2, ih3⟩ := ih (s + n / 4 * 3) e
        (acc.take c ++ lanes n (simdEncode n
          (fun i => ((data.drop s).take n).getD i 0))) (c + n)
        (by omega) (by omega) (by
          have : e - (s + n / 4 * 3) = (e - s) - n / 4 * 3 := by omega
          rw [this]
          exact Nat.dvd_sub' hdvd dvd_rfl)
        (by omega) (fun _ => hwin2)
      obtain ⟨t, ht⟩ := hdvd
      have ht1 : 1 ≤ t := by
        rcases Nat.eq_zero_or_pos t with h | h
        · rw [h, Nat.mul_zero] at ht; omega
        · omega
      have htq : e - (s + n / 4 * 3) = n / 4 * 3 * (t - 1) := by
        have : n / 4 * 3 * t - n / 4 * 3 * 1 = n / 4 * 3 * (t - 1) := by
          rcases t with _ | t2
          · omega
          · rw [Nat.mul_sub, Nat.mul_one]
        omega
      have hdiv1 : (e - s) / (n / 4 * 3) = t := by
        rw [ht]
        exact Nat.mul_div_cancel_left t hq0
      have hdiv2 : (e - (s + n / 4 * 3)) / (n / 4 * 3) = t - 1 := by
        rw [htq]
        exact Nat.mul_div_cancel_left (t - 1) hq0
      refine ⟨?_, ?_, ?_⟩
      · rw [hstep, ih1, hdiv1, hdiv2]
        have hexp : t * n = (t - 1) * n + n := by
          rcases t with _ | t2
          · omega
          · rw [Nat.succ_sub_one, Nat.succ_mul]
        omega
      · rw [hstep]
        exact ih2
      · rw [hstep, ih3]
        rw [List.take_of_length_le (le_of_eq hacclen), hlanfull,
          List.append_assoc,
          ← specEncodeBody_append _ _ (by rw [hAlen]; omega)]
        congr 1
        rw [show e - s = n / 4 * 3 + (e - (s + n / 4 * 3)) by omega,
          List.take_add, List.drop_drop]
    · have hes : e - s = 0 := by omega
      refine ⟨?_, ?_, ?_⟩
      · simp [encMainLoop, if_neg hlt, hes]
      · simpa [encMainLoop, if_neg hlt] using hc
      · simp [encMainLoop, if_neg hlt, hes, specEncodeBody]

/-- Invariant of the remainder encode loop: it consumes `data[s..]` in
chunks of at most `n/4*3` bytes via the padded gather and writes the
reference encoding after the committed prefix. -/
theorem encRestLoop_spec (n : Nat) (hn : 16 ∣ n) (h0 : 0 < n)
    (data : List Nat) (hb : allBytes data) :
    ∀ fuel s acc c, data.length - s ≤ fuel → c ≤ acc.length →
      (encRestLoop n data fuel s acc c).2 =
        c + encoded_len (data.length - s) ∧
      (encRestLoop n data fuel s acc c).2 ≤
        (encRestLoop n data fuel s acc c).1.length ∧
      (encRestLoop n data fuel s acc c).1.take
          (encRestLoop n data fuel s acc c).2 =
        acc.take c ++ specEncodeBody (data.drop s) := by
  obtain ⟨u, hu⟩ := hn
  have hu1 : 1 ≤ u := by omega
  intro fuel
  induction fuel with
  | zero =>
    intro s acc c hfuel hc
    have hes : data.length - s = 0 := by omega
    refine ⟨?_, ?_, ?_⟩
    · simp [encRestLoop, hes, encoded_len_zero]
    · simpa [encRestLoop] using hc
    · rw [List.drop_eq_nil_of_le (by omega)]
      simp [encRestLoop, specEncodeBody]
  | succ fuel ih =>
    intro s acc c hfuel hc
    by_cases hlt : s < data.length
    · have hstep : encRestLoop n data (fuel + 1) s acc c =
          encRestLoop n data fuel
            (s + ((data.drop s).take
              (min (data.length - s) (n / 4 * 3))).length)
            (acc.take c ++ lanes n (simdEncode n
              (fun i => (read_slice_padded n 0 ((data.drop s).take
                (min (data.length - s) (n / 4 * 3)))).getD i 0)))
            (c + encoded_len ((data.drop s).take
              (min (data.length - s) (n / 4 * 3))).length) := by
        simp [encRestLoop, if_pos hlt]
      have hL : ((data.drop s).take
          (min (data.length - s) (n / 4 * 3))).length =
          min (data.length - s) (n / 4 * 3) := by
        simp only [List.length_take, List.length_drop]
        omega
      have hL1 : 1 ≤ ((data.drop s).take
          (min (data.length - s) (n / 4 * 3))).length := by
        rw [hL]; omega
      have hLn : ((data.drop s).take
          (min (data.length - s) (n / 4 * 3))).length < n := by
        rw [hL]; omega
      have hCb : allBytes ((data.drop s).take
          (min (data.length - s) (n / 4 * 3))) :=
        allBytes_take _ _ (allBytes_drop _ _ hb)
      have hpad := read_slice_padded_spec n 0 _ ⟨u, hu⟩ hL1 hLn hCb (by omega)
      have hmatch : ∀ i, i < n / 4 * 3 →
          (read_slice_padded n 0 ((data.drop s).take
            (min (data.length - s) (n / 4 * 3)))).getD i 0 =
          ((data.drop s).take (min (data.length - s) (n / 4 * 3))).getD i 0 := by
        intro i hi
        rw [hpad]
        exact getD_append_replicate _ n 0 i (by omega) (by rw [hL]; omega)
      have hlan := lanes_encode_spec n ⟨u, hu⟩ _ _ (by rw [hL]; omega) hCb hmatch
      have hEL : encoded_len ((data.drop s).take
          (min (data.length - s) (n / 4 * 3))).length ≤ n := by
        rw [hL]
        calc encoded_len (min (data.length - s) (n / 4 * 3)) ≤ 4 * (4 * u) :=
              encoded_len_le_mul _ (4 * u) (by omega)
          _ = n := by omega
      have hacclen : (acc.take c ++ lanes n (simdEncode n
          (fun i => (read_slice_padded n 0 ((data.drop s).take
            (min (data.length - s) (n / 4 * 3)))).getD i 0))).length =
          c + n := by
        simp only [List.length_append, List.length_take, lanes_length]
        omega
      obtain ⟨ih1, ih2, ih3⟩ := ih
        (s + ((data.drop s).take (min (data.length - s) (n / 4 * 3))).length)
        (acc.take c ++ lanes n (simdEncode n
          (fun i => (read_slice_padded n 0 ((data.drop s).take
            (min (data.length - s) (n / 4 * 3)))).getD i 0)))
        (c + encoded_len ((data.drop s).take
          (min (data.length - s) (n / 4 * 3))).length)
        (by rw [hL]; omega) (by rw [hacclen]; omega)
      refine ⟨?_, ?_, ?_⟩
      · rw [hstep, ih1, hL]
        by_cases hsmall : data.length - s ≤ n / 4 * 3
        · rw [Nat.min_eq_left hsmall]
          have : data.length - (s + (data.length - s)) = 0 := by omega
          rw [this, encoded_len_zero]
          omega
        · rw [Nat.min_eq_right (by omega)]
          have hsplit : data.length - s = n / 4 * 3 + (data.length -
              (s + n / 4 * 3)) := by omega
          rw [hsplit, encoded_len_add _ _ (by omega)]
          omega
      · rw [hstep]
        exact ih2
      · rw [hstep, ih3,
          take_append_of_length _ _ c _ hc (by rw [lanes_length]; exact hEL),
          hlan, List.append_assoc]
        congr 1
        by_cases hsmall : data.length - s ≤ n / 4 * 3
        · have hmin : min (data.length - s) (n / 4 * 3) = data.length - s :=
            Nat.min_eq_left hsmall
          rw [hL, hmin, List.drop_eq_nil_of_le
            (show data.length ≤ s + (data.length - s) by omega)]
          simp only [specEncodeBody, List.append_nil]
          rw [List.take_of_length_le (by simp only [List.length_drop]; omega)]
        · have hmin : min (data.length - s) (n / 4 * 3) = n / 4 * 3 :=
            Nat.min_eq_right (by omega)
          rw [hL, hmin,
            ← specEncodeBody_append _ _ (by
              simp only [List.length_take, List.length_drop]
              omega)]
          congr 1
          conv_rhs => rw [← List.take_append_drop (n / 4 * 3) (data.drop s)]
          rw [List.drop_drop]
    · have hes : data.length - s = 0 := by omega
      refine ⟨?_, ?_, ?_⟩
      · simp [encRestLoop, if_neg hlt, hes, encoded_len_zero]
      · simpa [encRestLoop, if_neg hlt] using hc
      · rw [List.drop_eq_nil_of_le (by omega)]
        simp [encRestLoop, if_neg hlt, specEncodeBody]


/-- The two encode loops back to back, starting from an empty buffer, produce
exactly the reference body encoding, for any valid window end `e`. -/
theorem enc_core (n : Nat) (hn : 16 ∣ n) (h0 : 0 < n) (data : List Nat)
    (hb : allBytes data) (e : Nat) (hdvd : (n / 4 * 3) ∣ e)
    (he : e ≤ data.length) (hwin : 0 < e → e + n / 4 ≤ data.length) :
    (encRestLoop n data data.length e
        (encMainLoop n data data.length 0 e [] 0).1
        (encMainLoop n data data.length 0 e [] 0).2).1.take
      (encRestLoop n data data.length e
        (encMainLoop n data data.length 0 e [] 0).1
        (encMainLoop n data data.length 0 e [] 0).2).2 = specEncodeBody data ∧
    (encRestLoop n data data.length e
        (encMainLoop n data data.length 0 e [] 0).1
        (encMainLoop n data data.length 0 e [] 0).2).2 =
      encoded_len data.length := by
  obtain ⟨u, hu⟩ := hn
  have hu1 : 1 ≤ u := by omega
  have hq0 : 0 < n / 4 * 3 := by omega
  have he3 : e % 3 = 0 :=
    Nat.mod_eq_zero_of_dvd (dvd_trans ⟨4 * u, by omega⟩ hdvd)
  obtain ⟨m1, m2, m3⟩ := encMainLoop_spec n ⟨u, hu⟩ data hb
    data.length 0 e [] 0 (by omega) (by simp) (by simpa using hdvd)
    (by omega) (fun h => hwin h)
  obtain ⟨r1, r2, r3⟩ := encRestLoop_spec n ⟨u, hu⟩ h0 data hb
    data.length e (encMainLoop n data data.length 0 e [] 0).1
    (encMainLoop n data data.length 0 e [] 0).2 (by omega) m2
  constructor
  · rw [r3, m3]
    simp only [List.drop_zero, Nat.sub_zero, List.take_nil, List.nil_append]
    rw [← specEncodeBody_append _ _ (by
      simp only [List.length_take]
      omega), List.take_append_drop]
  · rw [r1, m1]
    obtain ⟨t, ht⟩ := hdvd
    have hdivq : e / (n / 4 * 3) = t := by
      rw [ht]
      exact Nat.mul_div_cancel_left t hq0
    have hdiv3 : e / 3 = 4 * u * t := by
      rw [ht, show n / 4 * 3 * t = 3 * (4 * u * t) by
        rw [show n / 4 * 3 = 12 * u from by omega]; ring]
      exact Nat.mul_div_cancel_left _ (by norm_num)
    have hEe : e / (n / 4 * 3) * n = encoded_len e := by
      rw [encoded_len_exact3 e he3, hdivq, hdiv3, hu]
      ring
    simp only [Nat.sub_zero, Nat.zero_add]
    rw [hEe, ← encoded_len_add _ _ he3,
      show e + (data.length - e) = data.length by omega]


/-- Full behaviour of `encode_tunable`: appended to a buffer whose length is
a multiple of 4, it produces exactly the reference padded encoding. -/
theorem encode_tunable_spec (n : Nat) (hn : 16 ∣ n) (h0 : 0 < n)
    (data out : List Nat) (hb : allBytes data) (ho : out.length % 4 = 0) :
    encode_tunable n data out = out ++ specEncode data := by
  obtain ⟨u, hu⟩ := hn
  have hu1 : 1 ≤ u := by omega
  by_cases hd : data.length = 0
  · have hnil : data = [] := List.length_eq_zero.mp hd
    subst hnil
    simp [encode_tunable, specEncode, specEncodeBody]
  · have hq0 : 0 < n / 4 * 3 := by omega
    have hmd := Nat.mod_add_div data.length (n / 4 * 3)
    have hmlt : data.length % (n / 4 * 3) < n / 4 * 3 := Nat.mod_lt _ hq0
    have hqdvd : (n / 4 * 3) ∣ (data.length - data.length % (n / 4 * 3)) :=
      ⟨data.length / (n / 4 * 3), by omega⟩
    unfold encode_tunable
    rw [if_neg hd]
    simp only []
    by_cases hc1 : n - n / 4 * 3 ≤ data.length % (n / 4 * 3)
    · rw [if_pos hc1]
      obtain ⟨hbody, hlen⟩ := enc_core n ⟨u, hu⟩ h0 data hb
        (data.length - data.length % (n / 4 * 3)) hqdvd (by omega)
        (fun _ => by omega)
      rw [hbody]
      split
      · rename_i heq
        have h31 : data.length % 3 = 1 := by
          simp only [List.length_append, specEncodeBody_length,
            encoded_len] at heq
          omega
        simp [specEncode, h31]
      · rename_i heq
        have h32 : data.length % 3 = 2 := by
          simp only [List.length_append, specEncodeBody_length,
            encoded_len] at heq
          omega
        simp [specEncode, h32]
      · rename_i h2 h3
        have h30 : data.length % 3 = 0 := by
          by_contra hcon
          have h1 : data.length % 3 = 1 ∨ data.length % 3 = 2 := by omega
          rcases h1 with h | h
          · exact h2 (by
              simp only [List.length_append, specEncodeBody_length,
                encoded_len]
              omega)
          · exact h3 (by
              simp only [List.length_append, specEncodeBody_length,
                encoded_len]
              omega)
        simp [specEncode, h30]
    · rw [if_neg hc1]
      by_cases hc2 : data.length < n
      · rw [if_pos hc2]
        obtain ⟨hbody, hlen⟩ := enc_core n ⟨u, hu⟩ h0 data hb 0
          (dvd_zero _) (by omega) (fun h => absurd h (lt_irrefl 0))
        rw [hbody]
        split
        · rename_i heq
          have h31 : data.length % 3 = 1 := by
            simp only [List.length_append, specEncodeBody_length,
              encoded_len] at heq
            omega
          simp [specEncode, h31]
        · rename_i heq
          have h32 : data.length % 3 = 2 := by
            simp only [List.length_append, specEncodeBody_length,
              encoded_len] at heq
            omega
          simp [specEncode, h32]
        · rename_i h2 h3
          have h30 : data.length % 3 = 0 := by
            by_contra hcon
            have h1 : data.length % 3 = 1 ∨ data.length % 3 = 2 := by omega
            rcases h1 with h | h
            · exact h2 (by
                simp only [List.length_append, specEncodeBody_length,
                  encoded_len]
                omega)
            · exact h3 (by
                simp only [List.length_append, specEncodeBody_length,
                  encoded_len]
                omega)
          simp [specEncode, h30]
      · rw [if_neg hc2]
        obtain ⟨hbody, hlen⟩ := enc_core n ⟨u, hu⟩ h0 data hb
          (data.length - data.length % (n / 4 * 3) - n / 4 * 3)
          (Nat.dvd_sub' hqdvd dvd_rfl) (by omega) (fun _ => by omega)
        rw [hbody]
        split
        · rename_i heq
          have h31 : data.length % 3 = 1 := by
            simp only [List.length_append, specEncodeBody_length,
              encoded_len] at heq
            omega
          simp [specEncode, h31]
        · rename_i heq
          have h32 : data.length % 3 = 2 := by
            simp only [List.length_append, specEncodeBody_length,
              encoded_len] at heq
            omega
          simp [specEncode, h32]
        · rename_i h2 h3
          have h30 : data.length % 3 = 0 := by
            by_contra hcon
            have h1 : data.length % 3 = 1 ∨ data.length % 3 = 2 := by omega
            rcases h1 with h | h
            · exact h2 (by
                simp only [List.length_append, specEncodeBody_length,
                  encoded_len]
                omega)
            · exact h3 (by
                simp only [List.length_append, specEncodeBody_length,
                  encoded_len]
                omega)
          simp [specEncode, h30]


/-! ### Scalar facts about the reference encoder -/

theorem getD_append_left (a b : List Nat) (i : Nat) (h : i < a.length) :
    (a ++ b).getD i 0 = a.getD i 0 := by
  rw [getD_lt_length _ i 0 (by simp only [List.length_append]; omega),
    getD_lt_length a i 0 h]
  exact List.getElem_append_left h

theorem getD_append_right (a b : List Nat) (i : Nat) (h : a.length ≤ i)
    (h2 : i < a.length + b.length) :
    (a ++ b).getD i 0 = b.getD (i - a.length) 0 := by
  rw [getD_lt_length _ i 0 (by simp only [List.length_append]; omega),
    getD_lt_length b _ 0 (by omega)]
  exact List.getElem_append_right h

/-- Every character the reference body encoder produces is in the alphabet,
ASCII, and not the pad character. -/
theorem specEncodeBody_chars (x : List Nat) (hb : allBytes x) :
    ∀ c ∈ specEncodeBody x, isB64 c = true ∧ c < 128 ∧ c ≠ 61 := by
  induction x using specEncodeBody.induct with
  | case1 d0 d1 d2 rest ih =>
    have h0 : d0 < 256 := hb _ (by simp)
    have h1 : d1 < 256 := hb _ (by simp)
    have h2 : d2 < 256 := hb _ (by simp)
    have hrest : allBytes rest := fun b hbm => hb b (by simp [hbm])
    intro c hc
    simp only [specEncodeBody, List.mem_cons] at hc
    rcases hc with h | h | h | h | h
    · subst h
      exact ⟨isB64_b64char _ (by omega), (b64char_lt _ (by omega)).1,
        (b64char_lt _ (by omega)).2⟩
    · subst h
      exact ⟨isB64_b64char _ (by omega), (b64char_lt _ (by omega)).1,
        (b64char_lt _ (by omega)).2⟩
    · subst h
      exact ⟨isB64_b64char _ (by omega), (b64char_lt _ (by omega)).1,
        (b64char_lt _ (by omega)).2⟩
    · subst h
      exact ⟨isB64_b64char _ (by omega), (b64char_lt _ (by omega)).1,
        (b64char_lt _ (by omega)).2⟩
    · exact ih hrest c h
  | case2 d0 d1 =>
    have h0 : d0 < 256 := hb _ (by simp)
    have h1 : d1 < 256 := hb _ (by simp)
    intro c hc
    simp only [specEncodeBody, List.mem_cons] at hc
    rcases hc with h | h | h | h
    · subst h
      exact ⟨isB64_b64char _ (by omega), (b64char_lt _ (by omega)).1,
        (b64char_lt _ (by omega)).2⟩
    · subst h
      exact ⟨isB64_b64char _ (by omega), (b64char_lt _ (by omega)).1,
        (b64char_lt _ (by omega)).2⟩
    · subst h
      exact ⟨isB64_b64char _ (by omega), (b64char_lt _ (by omega)).1,
        (b64char_lt _ (by omega)).2⟩
    · simp at h
  | case3 d0 =>
    have h0 : d0 < 256 := hb _ (by simp)
    intro c hc
    simp only [specEncodeBody, List.mem_cons] at hc
    rcases hc with h | h | h
    · subst h
      exact ⟨isB64_b64char _ (by omega), (b64char_lt _ (by omega)).1,
        (b64char_lt _ (by omega)).2⟩
    · subst h
      exact ⟨isB64_b64char _ (by omega), (b64char_lt _ (by omega)).1,
        (b64char_lt _ (by omega)).2⟩
    · simp at h
  | case4 =>
    intro c hc
    simp [specEncodeBody] at hc

theorem allBytes_specEncode (x : List Nat) (hb : allBytes x) :
    allBytes (specEncode x) := by
  intro c hc
  unfold specEncode at hc
  rcases List.mem_append.mp hc with h | h
  · have := (specEncodeBody_chars x hb c h).2.1
    omega
  · split_ifs at h
    · simp at h
      omega
    · simp at h
      omega
    · simp at h

theorem stripPad_of_ne (l : List Nat) (h : ∀ c ∈ l, c ≠ 61) : stripPad l = l := by
  unfold stripPad
  split_ifs with h1 h2
  · exfalso
    have hmem : l.getD (l.length - 1) 0 ∈ l := by
      rw [getD_lt_length _ _ 0 (by omega)]
      exact List.getElem_mem _
    exact h _ hmem h1.2.2
  · exfalso
    have hmem : l.getD (l.length - 1) 0 ∈ l := by
      rw [getD_lt_length _ _ 0 (by omega)]
      exact List.getElem_mem _
    exact h _ hmem h2.2
  · rfl

theorem stripPad_append_two (A : List Nat) : stripPad (A ++ [61, 61]) = A := by
  unfold stripPad
  have hlen : (A ++ [61, 61]).length = A.length + 2 := by simp
  rw [hlen, Nat.add_sub_cancel]
  have hg1 : (A ++ [61, 61]).getD A.length 0 = 61 := by
    rw [getD_append_right A _ A.length (le_refl _) (by simp)]
    simp
  have hg2 : (A ++ [61, 61]).getD (A.length + 2 - 1) 0 = 61 := by
    rw [show A.length + 2 - 1 = A.length + 1 by omega,
      getD_append_right A _ _ (by omega) (by simp),
      show A.length + 1 - A.length = 1 by omega]
    rfl
  rw [if_pos ⟨by omega, hg1, hg2⟩, List.take_left]

theorem stripPad_append_one (A : List Nat) (hA : ∀ c ∈ A, c ≠ 61)
    (h1 : 1 ≤ A.length) :
    stripPad (A ++ [61]) = A := by
  unfold stripPad
  have hlen : (A ++ [61]).length = A.length + 1 := by simp
  rw [hlen]
  have hg2 : (A ++ [61]).getD (A.length + 1 - 1) 0 = 61 := by
    rw [Nat.add_sub_cancel, getD_append_right A _ _ (le_refl _) (by simp),
      Nat.sub_self]
    rfl
  have hg1 : (A ++ [61]).getD (A.length + 1 - 2) 0 ≠ 61 := by
    rw [show A.length + 1 - 2 = A.length - 1 by omega,
      getD_append_left A _ _ (by omega)]
    have hmem : A.getD (A.length - 1) 0 ∈ A := by
      rw [getD_lt_length _ _ 0 (by omega)]
      exact List.getElem_mem _
    exact hA _ hmem
  rw [if_neg (fun hcon => hg1 hcon.2.1), if_pos ⟨by omega, hg2⟩,
    Nat.add_sub_cancel, List.take_left]

theorem stripPad_specEncode (x : List Nat) (hb : allBytes x) :
    stripPad (specEncode x) = specEncodeBody x := by
  have hne : ∀ c ∈ specEncodeBody x, c ≠ 61 :=
    fun c hc => (specEncodeBody_chars x hb c hc).2.2
  by_cases h31 : x.length % 3 = 1
  · rw [show specEncode x = specEncodeBody x ++ [61, 61] by
      simp [specEncode, h31], stripPad_append_two]
  · by_cases h32 : x.length % 3 = 2
    · have hE1 : 1 ≤ (specEncodeBody x).length := by
        rw [specEncodeBody_length]
        simp only [encoded_len]
        omega
      rw [show specEncode x = specEncodeBody x ++ [61] by
        simp [specEncode, h31, h32], stripPad_append_one _ hne hE1]
    · rw [show specEncode x = specEncodeBody x ++ [] by
        simp [specEncode, h31, h32], List.append_nil, stripPad_of_ne _ hne]

/-- The reference decoder inverts the reference body encoder. -/
theorem specDecode_specEncodeBody (x : List Nat) (hb : allBytes x) :
    specDecodeList (specEncodeBody x) = x := by
  induction x using specEncodeBody.induct with
  | case1 d0 d1 d2 rest ih =>
    have h0 : d0 < 256 := hb _ (by simp)
    have h1 : d1 < 256 := hb _ (by simp)
    have h2 : d2 < 256 := hb _ (by simp)
    have hrest : allBytes rest := fun b hbm => hb b (by simp [hbm])
    simp only [specEncodeBody, specDecodeList]
    rw [sextetOf_b64char _ (by omega), sextetOf_b64char _ (by omega),
      sextetOf_b64char _ (by omega), sextetOf_b64char _ (by omega), ih hrest]
    simp only [List.cons.injEq]
    exact ⟨by omega, by omega, by omega, trivial⟩
  | case2 d0 d1 =>
    have h0 : d0 < 256 := hb _ (by simp)
    have h1 : d1 < 256 := hb _ (by simp)
    simp only [specEncodeBody, specDecodeList]
    rw [sextetOf_b64char _ (by omega), sextetOf_b64char _ (by omega),
      sextetOf_b64char _ (by omega)]
    simp only [List.cons.injEq]
    exact ⟨by omega, by omega, trivial⟩
  | case3 d0 =>
    have h0 : d0 < 256 := hb _ (by simp)
    simp only [specEncodeBody, specDecodeList]
    rw [sextetOf_b64char _ (by omega), sextetOf_b64char _ (by omega)]
    simp only [List.cons.injEq]
    exact ⟨by omega, trivial⟩
  | case4 => simp [specEncodeBody, specDecodeList]

/-- Top-level behaviour of `decode`: strip padding, then all-or-nothing. -/
theorem decode_spec (n : Nat) (hn : 16 ∣ n) (h0 : 0 < n) (data : List Nat)
    (hb : allBytes data) :
    decode n data = if (stripPad data).all isB64 then
        Except.ok (specDecodeList (stripPad data))
      else Except.error () := by
  have hdec := decode_tunable_spec n hn h0 data [] hb
  unfold decode
  by_cases hall : (stripPad data).all isB64 = true
  · rw [if_pos hall] at hdec ⊢
    rw [hdec]
    simp
  · rw [if_neg hall] at hdec ⊢
    rw [hdec]


/-! ### Decidable alphabet facts used by the claims -/

set_option maxRecDepth 40000 in
theorem isB64_char_iff : ∀ b, b < 256 →
    isB64 b = (isAsciiAlphanumeric b || (b == 43) || (b == 47)) := by decide

set_option maxRecDepth 40000 in
theorem b64char_rfc : ∀ s, s < 64 → b64char s =
    (if s < 26 then 65 + s
     else if s < 52 then 97 + (s - 26)
     else if s < 62 then 48 + (s - 52)
     else if s = 62 then 43 else 47) := by decide

/-! ### The claims -/

/-- C1: for every byte buffer `x`, `decode (encode x)` returns `Ok x` — the
round trip through the public encode and decode functions, at every SIMD
width the library instantiates (any multiple of 16), including the empty
input and lengths that are not multiples of 3. -/
theorem claim_round_trip (n : Nat) (hn : 16 ∣ n) (h0 : 0 < n) (x : List Nat)
    (hb : allBytes x) : decode n (encode x) = Except.ok x := by
  have henc : encode x = specEncode x := by
    have h := encode_tunable_spec 16 (by norm_num) (by norm_num) x [] hb (by simp)
    simpa [encode] using h
  rw [henc, decode_spec n hn h0 _ (allBytes_specEncode x hb),
    stripPad_specEncode x hb,
    if_pos (List.all_eq_true.mpr (fun c hc => (specEncodeBody_chars x hb c hc).1)),
    specDecode_specEncodeBody x hb]

theorem claim_round_trip_witness :
    ((16 : Nat) ∣ 32 ∧ 0 < 32 ∧ allBytes [10, 255, 0]) ∧
      decode 32 (encode [10, 255, 0]) = Except.ok [10, 255, 0] :=
  ⟨⟨by norm_num, by norm_num, by unfold allBytes; decide⟩,
    claim_round_trip 32 (by norm_num) (by norm_num) [10, 255, 0]
      (by unfold allBytes; decide)⟩

/-- C2: decode returns the invalid-input error exactly when some byte of the
pad-stripped input lies outside the base64 alphabet, wherever it occurs —
validity is accumulated over every chunk of the input, not decided by a
prefix. -/
theorem claim_decode_error_iff (n : Nat) (hn : 16 ∣ n) (h0 : 0 < n)
    (data : List Nat) (hb : allBytes data) :
    decode n data = Except.error () ↔
      ∃ c ∈ stripPad data, isB64 c = false := by
  rw [decode_spec n hn h0 data hb]
  by_cases hall : (stripPad data).all isB64 = true
  · rw [if_pos hall]
    constructor
    · intro h
      exact absurd h (by simp)
    · rintro ⟨c, hc, hv⟩
      have := List.all_eq_true.mp hall c hc
      rw [this] at hv
      cases hv
  · rw [if_neg hall]
    refine ⟨fun _ => ?_, fun _ => rfl⟩
    rw [List.all_eq_true] at hall
    push_neg at hall
    obtain ⟨c, hc, hv⟩ := hall
    exact ⟨c, hc, by simpa using hv⟩

theorem claim_decode_error_iff_witness :
    ((16 : Nat) ∣ 16 ∧ 0 < 16 ∧ allBytes [33]) ∧
      (decode 16 [33] = Except.error () ↔
        ∃ c ∈ stripPad [33], isB64 c = false) :=
  ⟨⟨by norm_num, by norm_num, by unfold allBytes; decide⟩,
    claim_decode_error_iff 16 (by norm_num) (by norm_num) [33]
      (by unfold allBytes; decide)⟩

/-- C3: for every byte value `b`, decoding the three-byte input of `b` and two pads
succeeds exactly when `b` is ASCII alphanumeric or `+` (43) or `/` (47). -/
theorem claim_alphabet_rejection (n : Nat) (hn : 16 ∣ n) (h0 : 0 < n)
    (b : Nat) (hb : b < 256) :
    (∃ v, decode n [b, 61, 61] = Except.ok v) ↔
      (isAsciiAlphanumeric b = true ∨ b = 43 ∨ b = 47) := by
  have hball : allBytes [b, 61, 61] := by
    intro c hc
    simp only [List.mem_cons, List.not_mem_nil, or_false] at hc
    rcases hc with h | h | h <;> omega
  have hsp : stripPad [b, 61, 61] = [b] := by
    unfold stripPad
    rw [if_pos ⟨by norm_num, rfl, rfl⟩]
    rfl
  rw [decode_spec n hn h0 _ hball, hsp]
  have hiff := isB64_char_iff b hb
  by_cases hB : isB64 b = true
  · rw [if_pos (by simp [hB])]
    rw [hiff] at hB
    simp only [Bool.or_eq_true, beq_iff_eq] at hB
    exact ⟨fun _ => by tauto, fun _ => ⟨_, rfl⟩⟩
  · rw [if_neg (by simp [hB])]
    constructor
    · rintro ⟨v, hv⟩
      cases hv
    · intro hR
      exfalso
      apply hB
      rw [hiff]
      simp only [Bool.or_eq_true, beq_iff_eq]
      tauto

theorem claim_alphabet_rejection_witness :
    ((16 : Nat) ∣ 16 ∧ 0 < 16 ∧ (65 : Nat) < 256) ∧
      ((∃ v, decode 16 [65, 61, 61] = Except.ok v) ↔
        (isAsciiAlphanumeric 65 = true ∨ (65 : Nat) = 43 ∨ (65 : Nat) = 47)) :=
  ⟨⟨by norm_num, by norm_num, by norm_num⟩,
    claim_alphabet_rejection 16 (by norm_num) (by norm_num) 65 (by norm_num)⟩

/-- C4, counterexample: `encode` appends `=` padding, so its output length is
`encoded_len` rounded up to a multiple of 4, not `encoded_len` itself
(`encode [255]` has length 4 while `encoded_len 1 = 2`); likewise a
successful decode of a padded 4-character string returns 1 byte, not
`decoded_len 4 = 3` bytes. -/
theorem claim_length_contract_counterexample :
    (encode [255]).length = 4 ∧ encoded_len 1 = 2 ∧
      decode 16 [47, 119, 61, 61] = Except.ok [255] ∧ decoded_len 4 = 3 := by
  refine ⟨?_, by decide, ?_, by decide⟩
  · rfl
  · rfl

/-- C4, amended: `encode x` has length `encoded_len x.length` plus the length
of the `=` padding (2, 1 or 0 bytes as `x.length % 3` is 1, 2 or 0), and a
successful `decode s` returns exactly `decoded_len L'` bytes where `L'` is
the length of `s` after pad stripping. -/
theorem claim_length_contract_amended (x s : List Nat) (hb : allBytes x)
    (n : Nat) (hn : 16 ∣ n) (h0 : 0 < n) (hs : allBytes s) :
    (encode x).length = encoded_len x.length +
      (if x.length % 3 = 1 then 2 else if x.length % 3 = 2 then 1 else 0) ∧
    (∀ v, decode n s = Except.ok v →
      v.length = decoded_len (stripPad s).length) := by
  constructor
  · have henc : encode x = specEncode x := by
      have h := encode_tunable_spec 16 (by norm_num) (by norm_num) x [] hb (by simp)
      simpa [encode] using h
    rw [henc]
    unfold specEncode
    rw [List.length_append, specEncodeBody_length]
    split_ifs <;> simp
  · intro v hv
    rw [decode_spec n hn h0 s hs] at hv
    by_cases hall : (stripPad s).all isB64 = true
    · rw [if_pos hall] at hv
      injection hv with h
      rw [← h, specDecodeList_length]
    · rw [if_neg hall] at hv
      exact absurd hv (by simp)

theorem claim_length_contract_amended_witness :
    (allBytes [1, 2] ∧ (16 : Nat) ∣ 16 ∧ 0 < 16 ∧
        allBytes [47, 119, 61, 61]) ∧
      ((encode [1, 2]).length = encoded_len 2 +
          (if (2 : Nat) % 3 = 1 then 2 else if (2 : Nat) % 3 = 2 then 1 else 0) ∧
        (∀ v, decode 16 [47, 119, 61, 61] = Except.ok v →
          v.length = decoded_len (stripPad [47, 119, 61, 61]).length)) :=
  ⟨⟨by unfold allBytes; decide, by norm_num, by norm_num,
      by unfold allBytes; decide⟩,
    claim_length_contract_amended [1, 2] [47, 119, 61, 61]
      (by unfold allBytes; decide) 16 (by norm_num) (by norm_num)
      (by unfold allBytes; decide)⟩

/-- C5: the two length helpers are total and compute exactly the claimed
closed forms: `decoded_len n = n/4*3 + r` with `r` = 0,1,1,2 for
`n % 4` = 0,1,2,3, and `encoded_len n = n/3*4 + r` with `r` = 0,2,3 for
`n % 3` = 0,1,2. -/
theorem claim_len_formulas (n : Nat) :
    decoded_len n = n / 4 * 3 +
      (if n % 4 = 0 then 0 else if n % 4 = 1 then 1
       else if n % 4 = 2 then 1 else 2) ∧
    encoded_len n = n / 3 * 4 +
      (if n % 3 = 0 then 0 else if n % 3 = 1 then 2 else 3) := by
  constructor
  · simp only [decoded_len]
    split_ifs <;> omega
  · simp only [encoded_len]
    split_ifs <;> omega

/-- C6: `decode_to` is all-or-nothing on the logical contents of the output
buffer: on error `out` is exactly what it was before the call, and on success
the result is the original `out` with precisely the decoded bytes appended
(the same bytes a fresh `decode` of the input returns). -/
theorem claim_decode_to_all_or_nothing (n : Nat) (hn : 16 ∣ n) (h0 : 0 < n)
    (data out : List Nat) (hb : allBytes data) :
    ((decode_tunable n data out).1 = Except.error () →
      (decode_tunable n data out).2 = out) ∧
    ((decode_tunable n data out).1 = Except.ok () →
      ∃ d, (decode_tunable n data out).2 = out ++ d ∧
        decode n data = Except.ok d) := by
  have hdec := decode_tunable_spec n hn h0 data out hb
  have hds := decode_spec n hn h0 data hb
  by_cases hall : (stripPad data).all isB64 = true
  · rw [if_pos hall] at hdec hds
    rw [hdec]
    constructor
    · intro h
      exact absurd h (by simp)
    · intro _
      exact ⟨specDecodeList (stripPad data), rfl, hds⟩
  · rw [if_neg hall] at hdec hds
    rw [hdec]
    exact ⟨fun _ => rfl, fun h => absurd h (by simp)⟩

theorem claim_decode_to_all_or_nothing_witness :
    ((16 : Nat) ∣ 16 ∧ 0 < 16 ∧ allBytes [65]) ∧
      (((decode_tunable 16 [65] [7]).1 = Except.error () →
        (decode_tunable 16 [65] [7]).2 = [7]) ∧
      ((decode_tunable 16 [65] [7]).1 = Except.ok () →
        ∃ d, (decode_tunable 16 [65] [7]).2 = [7] ++ d ∧
          decode 16 [65] = Except.ok d)) :=
  ⟨⟨by norm_num, by norm_num, by unfold allBytes; decide⟩,
    claim_decode_to_all_or_nothing 16 (by norm_num) (by norm_num) [65] [7]
      (by unfold allBytes; decide)⟩

/-- C7: for any slice of length `L` with `1 ≤ L < W` and any fill byte,
`read_slice_padded` returns a `W`-lane vector whose lanes `0..L` are the
slice bytes in order and whose lanes `L..W` are all the fill byte, for every
supported width (any multiple of 16, covering 16 and 32), through all three
internal load tiers and the 16-byte-block path. -/
theorem claim_read_slice_padded_contract (n z : Nat) (slice : List Nat)
    (hn : 16 ∣ n) (h1 : 1 ≤ slice.length) (h2 : slice.length < n)
    (hb : allBytes slice) (hz : z < 256) :
    (read_slice_padded n z slice).length = n ∧
    ∀ i, i < n → (read_slice_padded n z slice).getD i 0 =
      if i < slice.length then slice.getD i 0 else z := by
  have hspec := read_slice_padded_spec n z slice hn h1 h2 hb hz
  rw [hspec]
  constructor
  · simp only [List.length_append, List.length_replicate]
    omega
  · intro i hi
    by_cases hil : i < slice.length
    · rw [if_pos hil, getD_append_left _ _ _ hil]
    · rw [if_neg hil, getD_append_right _ _ _ (by omega)
        (by simp only [List.length_replicate]; omega),
        getD_lt_length _ _ 0 (by simp only [List.length_replicate]; omega)]
      simp

theorem claim_read_slice_padded_contract_witness :
    ((16 : Nat) ∣ 32 ∧ 1 ≤ List.length [9, 8, 7] ∧ List.length [9, 8, 7] < 32 ∧
        allBytes [9, 8, 7] ∧ (65 : Nat) < 256) ∧
      ((read_slice_padded 32 65 [9, 8, 7]).length = 32 ∧
        ∀ i, i < 32 → (read_slice_padded 32 65 [9, 8, 7]).getD i 0 =
          if i < List.length [9, 8, 7] then List.getD [9, 8, 7] i 0 else 65) :=
  ⟨⟨by norm_num, by norm_num, by norm_num, by unfold allBytes; decide,
      by norm_num⟩,
    claim_read_slice_padded_contract 32 65 [9, 8, 7] (by norm_num)
      (by norm_num) (by norm_num) (by unfold allBytes; decide) (by norm_num)⟩

/-- C8: each output lane of the encode kernel is the base64 character of the
6-bit sextet read from the RFC 4648 bit field for that lane; the sextet is
always in 0..63, the kernel is total, and the character map is exactly
0–25 → A–Z, 26–51 → a–z, 52–61 → 0–9, 62 → `+`, 63 → `/`. -/
theorem claim_encode_kernel_rfc (n : Nat) (hn : 16 ∣ n) (data : Nat → Nat)
    (hb : ∀ i, i < n / 4 * 3 → data i < 256) (j : Nat) (hj : j < n) :
    simdEncode n data j = b64char (specSextet data j) ∧
    specSextet data j < 64 ∧
    (∀ s, s < 64 → b64char s =
      (if s < 26 then 65 + s
       else if s < 52 then 97 + (s - 26)
       else if s < 62 then 48 + (s - 52)
       else if s = 62 then 43 else 47)) := by
  obtain ⟨u, hu⟩ := hn
  refine ⟨simdEncode_lane n ⟨u, hu⟩ data hb j hj, ?_, fun s hs => b64char_rfc s hs⟩
  have h0 := hb (3 * (j / 4)) (by omega)
  have h1 := hb (3 * (j / 4) + 1) (by omega)
  have h2 := hb (3 * (j / 4) + 2) (by omega)
  simp only [specSextet]
  split_ifs <;> omega

theorem claim_encode_kernel_rfc_witness :
    ((16 : Nat) ∣ 16 ∧ (∀ i, i < 16 / 4 * 3 → (fun _ => (200 : Nat)) i < 256) ∧
        (0 : Nat) < 16) ∧
      (simdEncode 16 (fun _ => 200) 0 = b64char (specSextet (fun _ => 200) 0) ∧
        specSextet (fun _ => 200) 0 < 64 ∧
        (∀ s, s < 64 → b64char s =
          (if s < 26 then 65 + s
           else if s < 52 then 97 + (s - 26)
           else if s < 62 then 48 + (s - 52)
           else if s = 62 then 43 else 47))) :=
  ⟨⟨by norm_num, fun i _ => by norm_num, by norm_num⟩,
    claim_encode_kernel_rfc 16 (by norm_num) (fun _ => 200)
      (fun i _ => by norm_num) 0 (by norm_num)⟩

/-- C9: decoding the one-byte input `"A"` (a length no valid padded base64
string has) runs to completion and is accepted, returning `Ok [0x00]`, at
both widths the library instantiates. -/
theorem claim_decode_single_A :
    decode 16 [65] = Except.ok [0] ∧ decode 32 [65] = Except.ok [0] := by
  constructor
  · rfl
  · rfl

/-- C10: every byte of the output of `encode` is one of the 65 characters
A–Z, a–z, 0–9, `+`, `/`, `=`; in particular it is ASCII (< 128), so building
a UTF-8 string from it unchecked is sound. -/
theorem claim_encode_ascii (x : List Nat) (hb : allBytes x) :
    ∀ c ∈ encode x, (isB64 c = true ∨ c = 61) ∧ c < 128 := by
  have henc : encode x = specEncode x := by
    have h := encode_tunable_spec 16 (by norm_num) (by norm_num) x [] hb (by simp)
    simpa [encode] using h
  rw [henc]
  intro c hc
  unfold specEncode at hc
  rcases List.mem_append.mp hc with h | h
  · have := specEncodeBody_chars x hb c h
    exact ⟨Or.inl this.1, this.2.1⟩
  · split_ifs at h
    · simp at h
      exact ⟨Or.inr h, by omega⟩
    · simp at h
      exact ⟨Or.inr h, by omega⟩
    · simp at h

theorem claim_encode_ascii_witness :
    allBytes [0, 77, 255] ∧
      ∀ c ∈ encode [0, 77, 255], (isB64 c = true ∨ c = 61) ∧ c < 128 :=
  ⟨by unfold allBytes; decide,
    claim_encode_ascii [0, 77, 255] (by unfold allBytes; decide)⟩

end VB64
